import Mathlib

/-!
A shallow embedding of the Dendron sidebar / tree utilities
(`packages/common-all/src/util/treeUtil.ts` and the sidebar resolver module
concatenated with it) together with theorems checking the repository's
natural-language specification against the code.

JavaScript dictionaries (`NotePropsByIdDict`, `child2parent`, ...) are
modelled as association lists in insertion order; `Object.values` is the
list of second components.  `undefined` results of indexing are modelled
with `Option`.  Thrown exceptions are modelled with `Except`.  Unbounded
recursion in the source (recursion over the note graph, the `while` loop
of `getAllParents`) is modelled with an explicit fuel parameter; running
out of fuel corresponds to the JavaScript stack overflowing
(a catchable `RangeError`).
-/

/-- Vault membership of a note (`DVault`): a named partition of the note
collection, with a file-system path. -/
structure Vault where
  name : Option String
  fsPath : String
deriving DecidableEq, Repr

/-- Modelled from the spec: the front-matter-derived publish flags of a note
(`PublishUtils.getPublishFM` lives in `../utils`, which is not part of the
sources; spec §3 lists "optional front-matter-derived publish flags
(navigation exclusion, sort order, explicit position)"). -/
structure PublishFM where
  nav_exclude : Bool
  nav_order : Option Nat
  sort_order : Option String
deriving DecidableEq, Repr

/-- A note record of the note graph (spec §3 `Note`).  `custom_nav_order`
models `note.custom?.nav_order`. -/
structure NoteProps where
  id : String
  fname : String
  title : String
  children : List String
  vault : Vault
  stub : Bool
  schema : Bool
  custom_nav_order : Option Nat
  updated : Nat
  fm : PublishFM
deriving DecidableEq, Repr

/-- Modelled from the spec: `PublishUtils.getPublishFM` (not under `src/`)
returns the note's publish front matter. -/
def getPublishFM (note : NoteProps) : PublishFM := note.fm

/-- Modelled from the spec: `VaultUtils.getName` (not under `src/`) returns
the vault's name (spec §3: vault membership is named). -/
def vaultGetName (v : Vault) : String := v.name.getD v.fsPath

/-- Modelled from the spec: `TAGS_HIERARCHY_BASE` from `../constants`
(not under `src/`); the path of the designated tags hierarchy root note
(spec glossary: "Tags hierarchy root"). -/
def tagsHierarchyBase : String := "tags"

/-- Modelled from the spec: `TAGS_HIERARCHY` from `../constants`
(not under `src/`); the tags hierarchy path followed by the `.` delimiter. -/
def tagsHierarchy : String := "tags."

/-! ### String primitives

JavaScript strings are sequences of code units; comparison (`<`,
`localeCompare` in the default locale for the strings exercised here) is
lexicographic.  Lean's built-in `String` comparison functions are opaque to
kernel reduction, so the model works on the underlying character data. -/

/-- `String.prototype.split` on a single-character separator. -/
def splitCh (c : Char) : List Char → List (List Char)
  | [] => [[]]
  | x :: xs =>
    let r := splitCh c xs
    if x = c then [] :: r
    else
      match r with
      | [] => [[x]]
      | y :: ys => (x :: y) :: ys

/-- `fname.split(".")` of the source. -/
def splitOnDot (s : String) : List String :=
  (splitCh '.' s.data).map (fun l => String.mk l)

/-- The sort key of a JavaScript string: its sequence of code units,
compared lexicographically. -/
def strKey (s : String) : List ℕ := s.data.map Char.toNat

/-- `String.prototype.toLowerCase` (on the character range exercised
here). -/
def strLower (s : String) : String := String.mk (s.data.map Char.toLower)

/-- `NotePropsByIdDict`, in JavaScript an object keyed by note id: an
association list in insertion order. -/
abbrev NoteDict := List (String × NoteProps)

/-- Indexing a JavaScript object: the value at the key, if present. -/
def dictGet (d : NoteDict) (k : String) : Option NoteProps :=
  (d.find? (fun p => p.fst == k)).map Prod.snd

/-- `Object.values` of a dictionary: the values in insertion order. -/
def dictValues (d : NoteDict) : List NoteProps := d.map Prod.snd

/-! ### Hierarchy toolkit (`TreeUtils`) -/

/-- `TreeNode` of `treeUtil.ts`: a bare hierarchy node. -/
inductive TreeNode where
  | node (fname : String) (children : List TreeNode)

def TreeNode.fname : TreeNode → String
  | .node f _ => f

def TreeNode.children : TreeNode → List TreeNode
  | .node _ c => c

/-- Model of the JavaScript string order used by `localeCompare` /
`Array.prototype.sort` on strings: lexicographic on the code units. -/
def strLe (a b : String) : Prop := strKey a ≤ strKey b

instance : DecidableRel strLe := fun a b =>
  inferInstanceAs (Decidable (strKey a ≤ strKey b))

/-- Sequential `Array.prototype.map` over a callback that can throw. -/
def mapE (f : α → Except ε β) : List α → Except ε (List β)
  | [] => .ok []
  | a :: as' =>
    match f a with
    | .error e => .error e
    | .ok b => (mapE f as').map (fun bs => b :: bs)

/-- `TreeUtils.createTreeFromEngine`: create a tree starting from the given
root note, following the notes' `children` pointers.  The recursion of the
source is modelled with fuel; exhausted fuel corresponds to the JavaScript
call stack overflowing on a cyclic graph. -/
def createTreeFromEngine : Nat → NoteDict → String → Except String TreeNode
  | 0, _, _ => .error "RangeError: Maximum call stack size exceeded"
  | fuel + 1, allNotes, rootNoteId =>
    match dictGet allNotes rootNoteId with
    | some note =>
      let sortedKids :=
        List.insertionSort strLe (note.children.filter (fun child => child ≠ note.id))
      match mapE (fun child => createTreeFromEngine fuel allNotes child) sortedKids with
      | .error e => .error e
      | .ok children =>
        let fnames := splitOnDot note.fname
        .ok (.node (fnames.getLastD "") children)
    | none => .error ("No note found in engine for \"" ++ rootNoteId ++ "\"")

/-- One step of the `reduce` of `createTreeFromFileNames`: walk the
dot-separated segments of a name, finding the first matching child at each
level (and replacing its children in place) or pushing a fresh node at the
end of the sibling list. -/
def insertPath : List String → List TreeNode → List TreeNode
  | [], ts => ts
  | f :: rest, ts =>
    match ts.findIdx? (fun t => t.fname == f) with
    | some i =>
      match ts[i]? with
      | some t => ts.set i (.node f (insertPath rest t.children))
      | none => ts
    | none => ts ++ [.node f (insertPath rest [])]

/-- `TreeUtils.createTreeFromFileNames`: create a tree from a list of file
names, splitting on the `.` delimiter; names equal to the root name are
skipped. -/
def createTreeFromFileNames (fNames : List String) (rootNote : String) : TreeNode :=
  .node rootNote
    (fNames.foldl
      (fun result name =>
        if name ≠ rootNote then insertPath (splitOnDot name) result else result)
      [])

/-- Children comparison order used by `validateTreeNodes`
(`a.fname.localeCompare(b.fname)`). -/
def fnameLe (a b : TreeNode) : Prop := strLe a.fname b.fname

instance : DecidableRel fnameLe := fun a b =>
  inferInstanceAs (Decidable (strKey a.fname ≤ strKey b.fname))

/-- The loop over `expectedTree.children.entries()` of `validateTreeNodes`,
parameterised by the recursive comparison. -/
def validateChildrenGo (cmpTree : TreeNode → TreeNode → Except String Unit)
    (parentName : String) : List TreeNode → List TreeNode → Except String Unit
  | [], _ => .ok ()
  | _ :: _, [] => .ok ()
  | e :: es, a :: as' =>
    match cmpTree e a with
    | .error msg => .error ("Mismatch at " ++ parentName ++ "'s children. " ++ msg ++ ".")
    | .ok _ => validateChildrenGo cmpTree parentName es as'

/-- `TreeUtils.validateTreeNodes`: two trees are equal iff the `fname`s are
equal and the children (compared sorted by `fname`) are recursively equal.
`RespV3<void>` is modelled as `Except String Unit`.  Fuel models the
recursion depth of the source. -/
def validateTreeNodes : Nat → TreeNode → TreeNode → Except String Unit
  | 0, _, _ => .error "RangeError: Maximum call stack size exceeded"
  | fuel + 1, expectedTree, actualTree =>
    if expectedTree.fname ≠ actualTree.fname then
      .error ("Fname differs. Expected: \"" ++ expectedTree.fname ++ "\". Actual \"" ++
        actualTree.fname ++ "\"")
    else
      let ec := List.insertionSort fnameLe expectedTree.children
      let ac := List.insertionSort fnameLe actualTree.children
      if ec.length ≠ ac.length then
        .error ("Mismatch at " ++ expectedTree.fname ++ "'s children.")
      else
        validateChildrenGo (fun e a => validateTreeNodes fuel e a) expectedTree.fname ec ac

/-- The note graph of claim C1: paths `a`, `a.b`, `a.c`, `a`'s children
pointing at the other two, ids equal to paths. -/
def dictC1 : NoteDict :=
  [ ("a", { id := "a", fname := "a", title := "A", children := ["a.b", "a.c"],
            vault := ⟨some "v1", "/v1"⟩, stub := false, schema := false,
            custom_nav_order := none, updated := 1, fm := ⟨false, none, none⟩ }),
    ("a.b", { id := "a.b", fname := "a.b", title := "B", children := [],
              vault := ⟨some "v1", "/v1"⟩, stub := false, schema := false,
              custom_nav_order := none, updated := 2, fm := ⟨false, none, none⟩ }),
    ("a.c", { id := "a.c", fname := "a.c", title := "C", children := [],
              vault := ⟨some "v1", "/v1"⟩, stub := false, schema := false,
              custom_nav_order := none, updated := 3, fm := ⟨false, none, none⟩ }) ]

/-- The note graph of the amended claim C1: paths `root`, `a`, `a.b`,
`a.c`, with `root`'s child pointer at `a` and `a`'s children pointing at
the other two; ids equal to paths. -/
def dictC1root : NoteDict :=
  ("root", { id := "root", fname := "root", title := "Root", children := ["a"],
             vault := ⟨some "v1", "/v1"⟩, stub := false, schema := false,
             custom_nav_order := none, updated := 0, fm := ⟨false, none, none⟩ }) :: dictC1

/-- C1: the round trip as stated by the spec fails on the code.  Over the
note graph with paths `a`, `a.b`, `a.c` (root id `a`),
`createTreeFromEngine` yields the tree `a → {b, c}`, but
`createTreeFromFileNames(["a.b","a.c"], "a")` re-inserts the full segment
path of each name (only names exactly equal to the root name are skipped),
yielding `a → a → {b, c}`; `validateTreeNodes` consequently reports a
children-count mismatch instead of success. -/
theorem c1_counterexample :
    createTreeFromEngine 10 dictC1 "a" =
      .ok (.node "a" [.node "b" [], .node "c" []]) ∧
    createTreeFromFileNames ["a.b", "a.c"] "a" =
      .node "a" [.node "a" [.node "b" [], .node "c" []]] ∧
    (validateTreeNodes 10 (createTreeFromFileNames ["a.b", "a.c"] "a")
        (.node "a" [.node "b" [], .node "c" []])).isOk = false :=
  ⟨rfl, rfl, rfl⟩

/-- C1 (amended): the round trip holds when the shared first segment of the
dotted names is not itself the root name: for the input list
`["a.b","a.c"]` with root name `root`, the tree produced by
`createTreeFromFileNames` is structurally equal (as decided by
`validateTreeNodes` returning success) to the tree produced by
`createTreeFromEngine` over the note graph with paths `root`, `a`, `a.b`,
`a.c` where `root`'s child pointer is the id of `a`, `a`'s children
pointers are the ids of `a.b` and `a.c`, and `root` is the root id. -/
theorem c1_theorem :
    createTreeFromEngine 10 dictC1root "root" =
      .ok (.node "root" [.node "a" [.node "b" [], .node "c" []]]) ∧
    validateTreeNodes 10 (createTreeFromFileNames ["a.b", "a.c"] "root")
        (.node "root" [.node "a" [.node "b" [], .node "c" []]]) = .ok () :=
  ⟨rfl, rfl⟩

/-! ### `TreeUtils.getAllParents` (claim C2)

The source walks `child2parent` with `while (parent) { activeNoteIds.unshift(parent);
parent = child2parent[parent]; }`.  The loop is modelled with fuel: a `none`
result means that no number of steps makes the loop exit, i.e. the source
loops forever. -/

/-- One lookup of the loop: `parent = child2parent[p]`, with the JavaScript
truthiness test of the `while` condition (`undefined`, `null` and the empty
string all end the loop). -/
def parentLookup (m : List (String × Option String)) (k : String) : Option String :=
  match (m.find? (fun p => p.fst == k)).map Prod.snd with
  | some (some v) => if v = "" then none else some v
  | _ => none

/-- The `while (parent)` loop of `getAllParents`; `acc` is `activeNoteIds`
(each found parent is `unshift`ed to the front). -/
def getAllParentsGo : Nat → List (String × Option String) → Option String → List String →
    Option (List String)
  | _, _, none, acc => some acc
  | 0, _, some _, _ => none
  | fuel + 1, m, some p, acc => getAllParentsGo fuel m (parentLookup m p) (p :: acc)

/-- `TreeUtils.getAllParents` with an explicit step budget.  When the
source terminates after `k` loop iterations, this returns `some` of the
ancestor chain for every `fuel ≥ k`; if it returns `none` for every fuel,
the source's `while` loop never exits. -/
def getAllParentsFuel (fuel : Nat) (child2parent : List (String × Option String))
    (noteId : String) : Option (List String) :=
  getAllParentsGo fuel child2parent (parentLookup child2parent noteId) []

/-- The cyclic parent map of claim C2: `a ↦ b`, `b ↦ a`. -/
def cycMap : List (String × Option String) := [("a", some "b"), ("b", some "a")]

theorem getAllParentsGo_cycMap (fuel : Nat) :
    ∀ (p : String) (acc : List String), p = "a" ∨ p = "b" →
      getAllParentsGo fuel cycMap (some p) acc = none := by
  induction fuel with
  | zero => intro p acc _; rfl
  | succ n ih =>
    intro p acc h
    rcases h with h | h <;> subst h
    · have hl : parentLookup cycMap "a" = some "b" := rfl
      show getAllParentsGo n cycMap (parentLookup cycMap "a") ("a" :: acc) = none
      rw [hl]
      exact ih "b" _ (Or.inr rfl)
    · have hl : parentLookup cycMap "b" = some "a" := rfl
      show getAllParentsGo n cycMap (parentLookup cycMap "b") ("b" :: acc) = none
      rw [hl]
      exact ih "a" _ (Or.inl rfl)

/-- C2: the code does not satisfy the claim.  On the cyclic map
`{a ↦ b, b ↦ a}` starting from `a`, no step budget makes the `while` loop
of `getAllParents` exit: the source loops forever instead of returning a
finite ancestor chain. -/
theorem c2_theorem (fuel : Nat) : getAllParentsFuel fuel cycMap "a" = none := by
  show getAllParentsGo fuel cycMap (parentLookup cycMap "a") [] = none
  have hl : parentLookup cycMap "a" = some "b" := rfl
  rw [hl]
  exact getAllParentsGo_cycMap fuel "b" _ (Or.inr rfl)

/-! ### `TreeUtils.sortNotesAtLevel` (claims C5, C10) -/

/-- `TreeViewItemLabelTypeEnum`. -/
inductive TreeViewItemLabelType where
  | title
  | filename
deriving DecidableEq, Repr

/-- An `Option` sort criterion, with `undefined` ordered after every
defined value (lodash `compareAscending`). -/
def toTopN : Option ℕ → WithTop ℕ
  | none => ⊤
  | some n => (n : ℕ)

/-- An optional string criterion, as its code-unit key, `undefined`
last. -/
def toTopS : Option String → WithTop (List ℕ)
  | none => ⊤
  | some s => (strKey s : List ℕ)

/-- The label criterion of `sortNotesAtLevel`: for filename-style labels,
the lower-cased last dot-segment of the path; otherwise the lower-cased
title (optional chaining on an absent note yields `undefined`). -/
def levelLabel (noteDict : NoteDict) (labelType : Option TreeViewItemLabelType)
    (noteId : String) : Option String :=
  match labelType with
  | some .filename =>
    (dictGet noteDict noteId).bind (fun n => ((splitOnDot n.fname).getLast?).map strLower)
  | some .title => (dictGet noteDict noteId).map (fun n => strLower n.title)
  | none => (dictGet noteDict noteId).map (fun n => strLower n.title)

/-- The three-criteria sort key of `sortNotesAtLevel` (`_.sortBy` with
`custom.nav_order`, label, `updated`), compared lexicographically with
`undefined` sorted last. -/
def levelKey (noteDict : NoteDict) (labelType : Option TreeViewItemLabelType)
    (noteId : String) : (WithTop ℕ) ×ₗ ((WithTop (List ℕ)) ×ₗ (WithTop ℕ)) :=
  toLex (toTopN ((dictGet noteDict noteId).bind NoteProps.custom_nav_order),
    toLex (toTopS (levelLabel noteDict labelType noteId),
      toTopN ((dictGet noteDict noteId).map NoteProps.updated)))

/-- The sibling order of `sortNotesAtLevel`. -/
def sortLevelLe (noteDict : NoteDict) (labelType : Option TreeViewItemLabelType)
    (a b : String) : Prop :=
  levelKey noteDict labelType a ≤ levelKey noteDict labelType b

instance (noteDict : NoteDict) (labelType : Option TreeViewItemLabelType) :
    DecidableRel (sortLevelLe noteDict labelType) := fun a b =>
  inferInstanceAs (Decidable (levelKey noteDict labelType a ≤ levelKey noteDict labelType b))

instance (noteDict : NoteDict) (labelType : Option TreeViewItemLabelType) :
    IsTotal String (sortLevelLe noteDict labelType) :=
  ⟨fun a b => le_total (levelKey noteDict labelType a) (levelKey noteDict labelType b)⟩

instance (noteDict : NoteDict) (labelType : Option TreeViewItemLabelType) :
    IsTrans String (sortLevelLe noteDict labelType) :=
  ⟨fun _ _ _ hab hbc => le_trans hab hbc⟩

/-! #### lodash `_.get`

The presence filter of `sortNotesAtLevel` is `_.get(noteDict, noteId)`.
lodash resolves the id as a direct key when it consists of word characters
(`isKey`, regex `^\w*$`) or is itself a key of the dictionary
(`value in Object(object)`); any other id is cast to a property path
(`castPath` / `stringToPath`, which for the dotted names occurring as ids
is splitting on the `.` separator) and walked through the nested objects
(`baseGet`), ending in `undefined` as soon as an intermediate value is
`undefined`.  Property access is modelled on a JavaScript-value view of
the dictionary: the own data properties of the note records, of strings
(`length` and character indexing) and of arrays (`length` and element
indexing); accessing anything else yields `undefined`. -/

/-- A JavaScript value, as far as property paths over a note dictionary
can reach. -/
inductive JsVal where
  | undefined
  | str (s : String)
  | num (n : Nat)
  | boolean (b : Bool)
  | arr (elems : List JsVal)
  | obj (fields : List (String × JsVal))

/-- Whether a value is `undefined` (the `props === undefined` test of the
filter callback). -/
def JsVal.isUndefined : JsVal → Bool
  | .undefined => true
  | _ => false

/-- A canonical array or string index: JavaScript resolves `v["3"]` as
element access exactly for the canonical decimal form of an index. -/
def parseIndex (f : String) : Option Nat :=
  if f.data ≠ [] ∧ f.data.all Char.isDigit ∧ (f.data = ['0'] ∨ f.data.head? ≠ some '0')
  then some (f.data.foldl (fun acc c => acc * 10 + (c.toNat - 48)) 0)
  else none

/-- One step of JavaScript property access (`object[key]`) on own data
properties; anything absent yields `undefined`. -/
def jsProp : JsVal → String → JsVal
  | .obj fields, f =>
    match fields.find? (fun p => p.fst == f) with
    | some p => p.snd
    | none => .undefined
  | .arr elems, f =>
    if f == "length" then .num elems.length
    else
      match parseIndex f with
      | some i => elems.getD i .undefined
      | none => .undefined
  | .str s, f =>
    if f == "length" then .num s.data.length
    else
      match parseIndex f with
      | some i =>
        match s.data.get? i with
        | some c => .str (String.mk [c])
        | none => .undefined
      | none => .undefined
  | _, _ => .undefined

/-- The JavaScript object underlying a note record: its own data
properties, with the optional members present only when set. -/
def noteToJs (n : NoteProps) : JsVal :=
  .obj [("id", .str n.id), ("fname", .str n.fname), ("title", .str n.title),
    ("children", .arr (n.children.map JsVal.str)),
    ("vault", .obj (match n.vault.name with
      | some nm => [("name", .str nm), ("fsPath", .str n.vault.fsPath)]
      | none => [("fsPath", .str n.vault.fsPath)])),
    ("stub", .boolean n.stub), ("schema", .boolean n.schema),
    ("custom", .obj (match n.custom_nav_order with
      | some v => [("nav_order", .num v)]
      | none => [])),
    ("updated", .num n.updated)]

/-- The note dictionary as a JavaScript object. -/
def dictToJs (d : NoteDict) : JsVal :=
  .obj (d.map (fun p => (p.fst, noteToJs p.snd)))

/-- lodash `baseGet`: walk a property path, stopping with `undefined` when
an intermediate value is `undefined` (the `object != null` loop guard). -/
def deepGet : JsVal → List String → JsVal
  | v, [] => v
  | .undefined, _ :: _ => .undefined
  | v, f :: rest => deepGet (jsProp v f) rest

/-- The word test of lodash `isKey` (regex `^\w*$`): only ASCII letters,
digits and underscores. -/
def isWordKey (s : String) : Bool :=
  s.data.all (fun c => c.isAlphanum || c == '_')

/-- lodash `_.get(noteDict, noteId)`: direct lookup for a word key or an
own key of the dictionary, a deep property-path walk otherwise. -/
def lodashGet (noteDict : NoteDict) (noteId : String) : JsVal :=
  if isWordKey noteId || (dictGet noteDict noteId).isSome then
    match dictGet noteDict noteId with
    | some n => noteToJs n
    | none => .undefined
  else deepGet (dictToJs noteDict) (splitOnDot noteId)

/-- The ids of `noteIds` at which `_.get(noteDict, noteId)` is defined:
the source filter keeps these.  Besides the keys of the dictionary they
include dotted non-key ids that resolve as a property path into some
note. -/
def safeNoteIds (noteIds : List String) (noteDict : NoteDict) : List String :=
  noteIds.filter (fun i => !(lodashGet noteDict i).isUndefined)

/-- The ids of `noteIds` at which `_.get(noteDict, noteId)` is undefined
(the source `unsafeNoteIds`, reported in the non-fatal error payload). -/
def omittedNoteIds (noteIds : List String) (noteDict : NoteDict) : List String :=
  noteIds.filter (fun i => (lodashGet noteDict i).isUndefined)

/-- The tags bubble-down search
`out.find((noteId) => noteDict[noteId].fname === TAGS_HIERARCHY_BASE)`:
the member access is unconditional, so the callback throws a `TypeError`
when it reaches a surviving id that is not a key of the dictionary (which
the `_.get` presence filter does not rule out). -/
def findTagsE (noteDict : NoteDict) : List String → Except String (Option String)
  | [] => .ok none
  | i :: rest =>
    match dictGet noteDict i with
    | none => .error "TypeError: cannot read properties of undefined reading fname"
    | some n =>
      if n.fname == tagsHierarchyBase then .ok (some i)
      else findTagsE noteDict rest

/-- The tags bubble-down step on the search result: skipped when nothing
was found, when the found id is the falsy empty string
(`maybeTagsHierarchy && ...`), or when the note carries an explicit
`custom.nav_order`; otherwise the id is spliced out and pushed to the
end.  The id comes from the search, so its lookup is defined and the
optional chaining reads its `custom.nav_order`. -/
def bubbleTags (noteDict : NoteDict) (out : List String)
    (maybeTagsHierarchy : Option String) : List String :=
  match maybeTagsHierarchy with
  | some t =>
    if t ≠ "" ∧ (dictGet noteDict t).bind NoteProps.custom_nav_order = none then
      (out.eraseIdx (out.indexOf t)) ++ [t]
    else out
  | none => out

/-- `{data, error}` result of `sortNotesAtLevel`; `error` is the omitted-id
payload of the source's non-fatal `DendronError`. -/
structure SortNotesResp where
  data : List String
  error : Option (List String)
deriving DecidableEq, Repr

/-- `TreeUtils.sortNotesAtLevel`: drop ids at which `_.get` is undefined
(reported as a non-fatal error), stably sort the rest by nav order /
label / updated date (`_.sortBy` reads the criteria by direct indexing
with optional chaining, so a surviving non-key id sorts with all three
criteria `undefined`), search for the tags hierarchy root with an
unguarded member access (which throws on a surviving non-key id), bubble
the found tags note down, and reverse the whole result when requested. -/
def sortNotesAtLevel (noteIds : List String) (noteDict : NoteDict)
    (reverse : Bool) (labelType : Option TreeViewItemLabelType) :
    Except String SortNotesResp :=
  let err :=
    if (omittedNoteIds noteIds noteDict).isEmpty then none
    else some (omittedNoteIds noteIds noteDict)
  let out :=
    List.insertionSort (sortLevelLe noteDict labelType) (safeNoteIds noteIds noteDict)
  match findTagsE noteDict out with
  | .error e => .error e
  | .ok maybeTagsHierarchy =>
    let out2 := bubbleTags noteDict out maybeTagsHierarchy
    .ok (if reverse then ⟨out2.reverse, err⟩ else ⟨out2, err⟩)

/-- Whether an id is a dictionary key of a note lying at the tags
hierarchy root.  Used on the hypothesis side of the theorems to state
which inputs carry a tags note; the search of the code itself is
`findTagsE`, whose member access is unguarded. -/
def denotesTagsNote (noteDict : NoteDict) (noteId : String) : Bool :=
  match dictGet noteDict noteId with
  | some n => n.fname == tagsHierarchyBase
  | none => false

theorem splitCh_ne_nil (c : Char) (l : List Char) : splitCh c l ≠ [] := by
  induction l with
  | nil => simp [splitCh]
  | cons x xs ih =>
    simp only [splitCh]
    by_cases hx : x = c
    · simp [hx]
    · rw [if_neg hx]
      cases h : splitCh c xs with
      | nil => simp
      | cons y ys => simp

theorem splitOnDot_ne_nil (s : String) : splitOnDot s ≠ [] := by
  intro h
  exact splitCh_ne_nil '.' s.data (List.map_eq_nil_iff.mp h)

theorem levelLabel_isSome (noteDict : NoteDict) (labelType : Option TreeViewItemLabelType)
    {t : String} {n : NoteProps} (h : dictGet noteDict t = some n) :
    ∃ s, levelLabel noteDict labelType t = some s := by
  cases labelType with
  | none => exact ⟨strLower n.title, by simp [levelLabel, h]⟩
  | some lt =>
    cases lt with
    | title => exact ⟨strLower n.title, by simp [levelLabel, h]⟩
    | filename =>
      obtain ⟨y, hy⟩ := Option.isSome_iff_exists.mp
        (List.getLast?_isSome.mpr (splitOnDot_ne_nil n.fname))
      exact ⟨strLower y, by simp [levelLabel, h, hy]⟩

/-- The all-undefined sort key: the key of any surviving id that is not a
dictionary key. -/
def topLevelKey : (WithTop ℕ) ×ₗ ((WithTop (List ℕ)) ×ₗ (WithTop ℕ)) :=
  toLex ((⊤ : WithTop ℕ), toLex ((⊤ : WithTop (List ℕ)), (⊤ : WithTop ℕ)))

theorem levelKey_of_not_key (noteDict : NoteDict) (labelType : Option TreeViewItemLabelType)
    {e : String} (h : dictGet noteDict e = none) :
    levelKey noteDict labelType e = topLevelKey := by
  have hl : levelLabel noteDict labelType e = none := by
    cases labelType with
    | none => simp [levelLabel, h]
    | some lt => cases lt <;> simp [levelLabel, h]
  simp [levelKey, topLevelKey, h, hl, toTopN, toTopS]

theorem levelKey_lt_top (noteDict : NoteDict) (labelType : Option TreeViewItemLabelType)
    {t : String} {n : NoteProps} (h : dictGet noteDict t = some n) :
    levelKey noteDict labelType t < topLevelKey := by
  obtain ⟨s, hs⟩ := levelLabel_isSome noteDict labelType h
  cases hnav : n.custom_nav_order with
  | some v =>
    have hk : levelKey noteDict labelType t =
        toLex ((v : WithTop ℕ),
          toLex ((strKey s : WithTop (List ℕ)), (n.updated : WithTop ℕ))) := by
      simp [levelKey, h, hs, hnav, toTopS, toTopN]
    rw [hk]
    unfold topLevelKey
    exact (Prod.Lex.lt_iff _ _).mpr (Or.inl (WithTop.coe_lt_top v))
  | none =>
    have hk : levelKey noteDict labelType t =
        toLex ((⊤ : WithTop ℕ),
          toLex ((strKey s : WithTop (List ℕ)), (n.updated : WithTop ℕ))) := by
      simp [levelKey, h, hs, hnav, toTopS, toTopN]
    rw [hk]
    unfold topLevelKey
    refine (Prod.Lex.lt_iff _ _).mpr (Or.inr ⟨rfl, ?_⟩)
    exact (Prod.Lex.lt_iff _ _).mpr (Or.inl (WithTop.coe_lt_top (strKey s)))

theorem filter_eq_singleton_decomp {p : α → Bool} :
    ∀ {l : List α} {t : α}, l.filter p = [t] →
      ∃ l₁ l₂, l = l₁ ++ t :: l₂ ∧ ∀ e ∈ l₁, p e = false := by
  intro l
  induction l with
  | nil => intro t h; simp at h
  | cons a l ih =>
    intro t h
    by_cases hp : p a
    · rw [List.filter_cons_of_pos hp] at h
      have h1 : a = t := (List.cons_eq_cons.mp h).1
      exact ⟨[], l, by rw [List.nil_append, h1], by intro e he; cases he⟩
    · rw [List.filter_cons_of_neg (by simpa using hp)] at h
      obtain ⟨l₁, l₂, heq, hl₁⟩ := ih h
      refine ⟨a :: l₁, l₂, by rw [heq, List.cons_append], ?_⟩
      intro e he
      rcases List.mem_cons.mp he with rfl | he2
      · simpa using hp
      · exact hl₁ e he2

theorem findTagsE_locates (noteDict : NoteDict) {t : String} {n : NoteProps}
    (htn : dictGet noteDict t = some n) (htags : (n.fname == tagsHierarchyBase) = true) :
    ∀ (l₁ l₂ : List String),
      (∀ e ∈ l₁, ∃ m, dictGet noteDict e = some m ∧ (m.fname == tagsHierarchyBase) = false) →
      findTagsE noteDict (l₁ ++ t :: l₂) = .ok (some t) := by
  intro l₁
  induction l₁ with
  | nil =>
    intro l₂ _
    rw [List.nil_append]
    simp [findTagsE, htn, htags]
  | cons a l₁ ih =>
    intro l₂ hl
    obtain ⟨m, hm, hmtags⟩ := hl a (List.mem_cons_self a l₁)
    rw [List.cons_append]
    simp only [findTagsE, hm]
    rw [if_neg (by simp [hmtags])]
    exact ih l₂ (fun e he => hl e (List.mem_cons_of_mem a he))

/-- C5: reversal law for `sortNotesAtLevel`.  (1) Reversal is applied
last, to the complete sorted-and-bubbled list, and to nothing else: the
`reverse := true` result is the image of the `reverse := false` result
under reversing the `data` field, with identical error behaviour
(including an identical thrown `TypeError` when the tags search reaches a
surviving non-key id).  (2) Hence, when no note of the dictionary lies at
the tags hierarchy root, whenever the `reverse := false` call returns,
the `reverse := true` call returns exactly the element-wise reverse of
its `data`.  (3) When exactly one surviving input id is the (non-empty)
key of a tags-hierarchy-root note and that note has no explicit numeric
order, both calls return, and that id is the last element of the
non-reversed `data` and the first element of the reversed `data`. -/
theorem c5_theorem (noteIds : List String) (noteDict : NoteDict)
    (labelType : Option TreeViewItemLabelType) :
    (sortNotesAtLevel noteIds noteDict true labelType =
      (sortNotesAtLevel noteIds noteDict false labelType).map
        (fun r => ⟨r.data.reverse, r.error⟩)) ∧
    ((∀ n ∈ dictValues noteDict, n.fname ≠ tagsHierarchyBase) →
      ∀ r : SortNotesResp, sortNotesAtLevel noteIds noteDict false labelType = .ok r →
        sortNotesAtLevel noteIds noteDict true labelType = .ok ⟨r.data.reverse, r.error⟩) ∧
    (∀ t : String, t ≠ "" →
      (safeNoteIds noteIds noteDict).filter (fun i => denotesTagsNote noteDict i) = [t] →
      (dictGet noteDict t).bind NoteProps.custom_nav_order = none →
      ((∃ r : SortNotesResp,
          sortNotesAtLevel noteIds noteDict false labelType = .ok r ∧
          r.data.getLast? = some t) ∧
        (∃ r : SortNotesResp,
          sortNotesAtLevel noteIds noteDict true labelType = .ok r ∧
          r.data.head? = some t))) := by
  have law : sortNotesAtLevel noteIds noteDict true labelType =
      (sortNotesAtLevel noteIds noteDict false labelType).map
        (fun r => ⟨r.data.reverse, r.error⟩) := by
    cases hf : findTagsE noteDict
        (List.insertionSort (sortLevelLe noteDict labelType) (safeNoteIds noteIds noteDict)) with
    | error e => simp [sortNotesAtLevel, hf, Except.map]
    | ok mt => simp [sortNotesAtLevel, hf, Except.map]
  refine ⟨law, fun _ r hr => by simp only [law, hr, Except.map], ?_⟩
  intro t ht0 hfilter hnav
  have hperm :=
    List.perm_insertionSort (sortLevelLe noteDict labelType) (safeNoteIds noteIds noteDict)
  have hsorted : List.Pairwise (sortLevelLe noteDict labelType)
      (List.insertionSort (sortLevelLe noteDict labelType) (safeNoteIds noteIds noteDict)) :=
    List.sorted_insertionSort (sortLevelLe noteDict labelType) (safeNoteIds noteIds noteDict)
  have hfo : (List.insertionSort (sortLevelLe noteDict labelType)
      (safeNoteIds noteIds noteDict)).filter (fun i => denotesTagsNote noteDict i) = [t] := by
    have h2 := hperm.filter (fun i => denotesTagsNote noteDict i)
    rw [hfilter] at h2
    exact List.perm_singleton.mp h2
  obtain ⟨l₁, l₂, houtEq, hl₁⟩ := filter_eq_singleton_decomp hfo
  have ht_pred : denotesTagsNote noteDict t = true := by
    have htm : t ∈ (List.insertionSort (sortLevelLe noteDict labelType)
        (safeNoteIds noteIds noteDict)).filter (fun i => denotesTagsNote noteDict i) := by
      rw [hfo]
      exact List.mem_cons_self t []
    exact (List.mem_filter.mp htm).2
  obtain ⟨tn, htn, htags⟩ : ∃ m, dictGet noteDict t = some m ∧
      (m.fname == tagsHierarchyBase) = true := by
    unfold denotesTagsNote at ht_pred
    cases hdg : dictGet noteDict t with
    | none => rw [hdg] at ht_pred; exact absurd ht_pred (by simp)
    | some m => rw [hdg] at ht_pred; exact ⟨m, rfl, ht_pred⟩
  have hl₁exact : ∀ e ∈ l₁, ∃ m, dictGet noteDict e = some m ∧
      (m.fname == tagsHierarchyBase) = false := by
    intro e he
    have hle : sortLevelLe noteDict labelType e t := by
      have hp := (List.pairwise_append.mp (houtEq ▸ hsorted)).2.2
      exact hp e he t (List.mem_cons_self t l₂)
    cases hdg : dictGet noteDict e with
    | none =>
      exfalso
      have h1 : levelKey noteDict labelType e = topLevelKey :=
        levelKey_of_not_key noteDict labelType hdg
      have h2 : levelKey noteDict labelType t < topLevelKey :=
        levelKey_lt_top noteDict labelType htn
      have hle2 : topLevelKey ≤ levelKey noteDict labelType t := by
        rw [← h1]
        exact hle
      exact absurd (lt_of_le_of_lt hle2 h2) (lt_irrefl _)
    | some m =>
      refine ⟨m, rfl, ?_⟩
      have hpe := hl₁ e he
      unfold denotesTagsNote at hpe
      rw [hdg] at hpe
      exact hpe
  have hfind : findTagsE noteDict (List.insertionSort (sortLevelLe noteDict labelType)
      (safeNoteIds noteIds noteDict)) = .ok (some t) := by
    rw [houtEq]
    exact findTagsE_locates noteDict htn htags l₁ l₂ hl₁exact
  have hbub : bubbleTags noteDict (List.insertionSort (sortLevelLe noteDict labelType)
        (safeNoteIds noteIds noteDict)) (some t) =
      ((List.insertionSort (sortLevelLe noteDict labelType)
        (safeNoteIds noteIds noteDict)).erase t) ++ [t] := by
    simp only [bubbleTags]
    rw [if_pos ⟨ht0, hnav⟩, List.eraseIdx_indexOf_eq_erase]
  have hres : sortNotesAtLevel noteIds noteDict false labelType =
      .ok ⟨((List.insertionSort (sortLevelLe noteDict labelType)
          (safeNoteIds noteIds noteDict)).erase t) ++ [t],
        if (omittedNoteIds noteIds noteDict).isEmpty then none
        else some (omittedNoteIds noteIds noteDict)⟩ := by
    simp [sortNotesAtLevel, hfind, hbub]
  constructor
  · exact ⟨_, hres, List.getLast?_concat _⟩
  · refine ⟨⟨(((List.insertionSort (sortLevelLe noteDict labelType)
        (safeNoteIds noteIds noteDict)).erase t) ++ [t]).reverse,
      if (omittedNoteIds noteIds noteDict).isEmpty then none
      else some (omittedNoteIds noteIds noteDict)⟩, ?_, ?_⟩
    · simp only [law, hres, Except.map]
    · rw [List.head?_reverse]
      exact List.getLast?_concat _

/-- A tag-free dictionary exercising claim C5's reversal law. -/
def dictC5a : NoteDict :=
  [ ("n1", { id := "n1", fname := "x", title := "X", children := [],
             vault := ⟨some "v1", "/v1"⟩, stub := false, schema := false,
             custom_nav_order := none, updated := 1, fm := ⟨false, none, none⟩ }),
    ("n2", { id := "n2", fname := "y", title := "Y", children := [],
             vault := ⟨some "v1", "/v1"⟩, stub := false, schema := false,
             custom_nav_order := none, updated := 2, fm := ⟨false, none, none⟩ }) ]

/-- A dictionary with a tags-hierarchy-root note without explicit order. -/
def dictC5b : NoteDict :=
  [ ("n1", { id := "n1", fname := "x", title := "X", children := [],
             vault := ⟨some "v1", "/v1"⟩, stub := false, schema := false,
             custom_nav_order := none, updated := 1, fm := ⟨false, none, none⟩ }),
    ("t1", { id := "t1", fname := "tags", title := "Tags", children := [],
             vault := ⟨some "v1", "/v1"⟩, stub := false, schema := false,
             custom_nav_order := none, updated := 2, fm := ⟨false, none, none⟩ }) ]

/-- The concrete id lists of the C5 witness. -/
def idsC5a : List String := ["n1", "n2"]

def idsC5b : List String := ["n1", "t1"]

/-- Witness for C5 at concrete inputs: a tag-free two-note level for the
reversal law, and a level with one unordered tags note for the bubble-down
placement. -/
theorem c5_witness :
    ((∀ n ∈ dictValues dictC5a, n.fname ≠ tagsHierarchyBase) ∧
      sortNotesAtLevel idsC5a dictC5a false none = .ok ⟨["n1", "n2"], none⟩ ∧
      sortNotesAtLevel idsC5a dictC5a true none = .ok ⟨["n2", "n1"], none⟩) ∧
    (("t1" : String) ≠ "" ∧
      (safeNoteIds idsC5b dictC5b).filter (fun i => denotesTagsNote dictC5b i) = ["t1"] ∧
      (dictGet dictC5b "t1").bind NoteProps.custom_nav_order = none ∧
      ((∃ r : SortNotesResp, sortNotesAtLevel idsC5b dictC5b false none = .ok r ∧
          r.data.getLast? = some "t1") ∧
        (∃ r : SortNotesResp, sortNotesAtLevel idsC5b dictC5b true none = .ok r ∧
          r.data.head? = some "t1"))) :=
  ⟨⟨by decide, rfl,
      (c5_theorem idsC5a dictC5a none).2.1 (by decide) ⟨["n1", "n2"], none⟩ rfl⟩,
    ⟨by decide, by decide, rfl,
      (c5_theorem idsC5b dictC5b none).2.2 "t1" (by decide) (by decide) rfl⟩⟩

/-- A level with a tags note and a plain note `a`; the dotted non-key id
`"a.title"` deep-resolves through `_.get` to the title of note `a`. -/
def dictC10 : NoteDict :=
  [ ("tags", { id := "tags", fname := "tags", title := "Tags", children := [],
               vault := ⟨some "v1", "/v1"⟩, stub := false, schema := false,
               custom_nav_order := none, updated := 1, fm := ⟨false, none, none⟩ }),
    ("a", { id := "a", fname := "a", title := "A", children := [],
            vault := ⟨some "v1", "/v1"⟩, stub := false, schema := false,
            custom_nav_order := none, updated := 2, fm := ⟨false, none, none⟩ }) ]

/-- C10: the code does not satisfy the claim.  On the level `{tags, a}`
with input ids `["tags", "a.title"]`, the presence filter
`_.get(noteDict, noteId)` deep-resolves the dotted non-key id `"a.title"`
to the title of note `a`, so the id survives the filter; the sort places
it last (its direct-indexing criteria are all `undefined`), the tags
search finds the `tags` note before reaching the non-key id, and the
bubble-down pushes `tags` past it.  `sortNotesAtLevel` returns
`data = ["a.title", "tags"]` with no omission error, although `"a.title"`
is not a key of the dictionary: the claimed permutation of the
key-present input ids (the partition spec §4.4 also states) fails. -/
theorem c10_theorem :
    dictGet dictC10 "a.title" = none ∧
    (lodashGet dictC10 "a.title").isUndefined = false ∧
    sortNotesAtLevel ["tags", "a.title"] dictC10 false none =
      .ok ⟨["a.title", "tags"], none⟩ ∧
    ¬ List.Perm ["a.title", "tags"]
      (["tags", "a.title"].filter (fun i => (dictGet dictC10 i).isSome)) :=
  ⟨rfl, rfl, rfl, by decide⟩

/-! ### Sidebar resolver module

Resolved sidebar items.  At runtime a `WithPosition<SidebarItem>` is a
plain object that may carry the extra own-properties `position`, `fname`
and `reverse`; presence of these properties is modelled with `Option`
fields, and the rest-destructuring `({position, fname, reverse, ...item})`
of `sortItems` sets them back to absent. -/

/-- The positional hints `position` / `fname` / `reverse` of
`WithPosition<T>`. -/
structure Hints where
  position : Option Nat
  fname : Option String
  reverse : Option Bool
deriving DecidableEq, Repr

/-- The hints of an object that does not carry the positional
properties. -/
def noHints : Hints := ⟨none, none, none⟩

/-- A resolved `SidebarItem`: a note reference or a category (note link
plus nested items), possibly carrying positional hints. -/
inductive SidebarItem where
  | note (id : String) (label : String) (hints : Hints)
  | category (label : String) (items : List SidebarItem) (linkId : String) (hints : Hints)

/-- The positional hints carried by an item. -/
def itemHints : SidebarItem → Hints
  | .note _ _ h => h
  | .category _ _ _ h => h

/-- JavaScript truthiness of the `reverse` hint (`if (item.reverse)`). -/
def isRev : Option Bool → Bool
  | some true => true
  | _ => false

/-- The rest-destructuring `({position, fname, reverse, ...item}) => item`
of `sortItems`: the positional hints are removed. -/
def stripHints : SidebarItem → SidebarItem
  | .note i l _ => .note i l noHints
  | .category l items link _ => .category l items link noHints

/-- The `_.sortBy(processedSidebarItems, ["position", "fname"])` sort key:
`position` then `fname`, lexicographically, `undefined` after every
defined value (lodash `compareAscending`). -/
def itemKey (it : SidebarItem) : (WithTop ℕ) ×ₗ (WithTop (List ℕ)) :=
  toLex (toTopN (itemHints it).position, toTopS (itemHints it).fname)

/-- The sibling order of `sortItems`. -/
def sortItemsLe (a b : SidebarItem) : Prop := itemKey a ≤ itemKey b

instance : DecidableRel sortItemsLe := fun a b =>
  inferInstanceAs (Decidable (itemKey a ≤ itemKey b))

instance : IsTotal SidebarItem sortItemsLe := ⟨fun a b => le_total (itemKey a) (itemKey b)⟩

instance : IsTrans SidebarItem sortItemsLe := ⟨fun _ _ _ hab hbc => le_trans hab hbc⟩

mutual
/-- The `sidebarItems.map(...)` preprocessing step of `sortItems`: each
category's nested items are recursively sorted first, and the
already-sorted nested list is reversed as a whole when the category's
`reverse` hint is set. -/
def procOne : SidebarItem → SidebarItem
  | .note i l h => .note i l h
  | .category l items link h =>
    let sortedItems := sortItems items
    .category l (if isRev h.reverse then sortedItems.reverse else sortedItems) link h
termination_by it => (sizeOf it, 0)

/-- `procOne` mapped over a sibling list. -/
def procList : List SidebarItem → List SidebarItem
  | [] => []
  | x :: xs => procOne x :: procList xs
termination_by xs => (sizeOf xs, 1)

/-- `sortItems` of the sidebar resolver: recursively process the nested
category items, stably sort the sibling list by `position` then `fname`,
and strip the positional hints from the result. -/
def sortItems (sidebarItems : List SidebarItem) : List SidebarItem :=
  (List.insertionSort sortItemsLe (procList sidebarItems)).map stripHints
termination_by (sizeOf sidebarItems, 2)
end

theorem procList_eq_map (xs : List SidebarItem) : procList xs = xs.map procOne := by
  induction xs with
  | nil => rw [procList]; rfl
  | cons x xs ih => rw [procList, ih]; rfl

mutual
/-- An item carries no positional hints, recursively. -/
def hintFreeOne : SidebarItem → Bool
  | .note _ _ h => h == noHints
  | .category _ items _ h => (h == noHints) && hintFreeList items
termination_by it => (sizeOf it, 0)

/-- All items of a list are recursively hint-free. -/
def hintFreeList : List SidebarItem → Bool
  | [] => true
  | x :: xs => hintFreeOne x && hintFreeList xs
termination_by xs => (sizeOf xs, 1)
end

theorem hintFreeList_eq_all (l : List SidebarItem) : hintFreeList l = l.all hintFreeOne := by
  induction l with
  | nil => rw [hintFreeList]; rfl
  | cons x xs ih => rw [hintFreeList, ih]; rfl

/-- The sibling order as worded by the spec: by explicit numeric position
if present (positioned items before unpositioned ones), otherwise by path
name, ascending. -/
def specSiblingLe (a b : SidebarItem) : Prop :=
  match (itemHints a).position, (itemHints b).position with
  | some p, some q => p ≤ q
  | some _, none => True
  | none, some _ => False
  | none, none => toTopS (itemHints a).fname ≤ toTopS (itemHints b).fname

theorem sortItemsLe_imp_spec (a b : SidebarItem) (hab : sortItemsLe a b) :
    specSiblingLe a b := by
  unfold sortItemsLe itemKey at hab
  rw [Prod.Lex.le_iff] at hab
  unfold specSiblingLe
  cases hpa : (itemHints a).position with
  | some p =>
    cases hpb : (itemHints b).position with
    | some q =>
      simp only [hpa, hpb, toTopN] at hab ⊢
      rcases hab with hlt | ⟨heq, _⟩
      · exact le_of_lt (WithTop.coe_lt_coe.mp hlt)
      · exact le_of_eq (WithTop.coe_eq_coe.mp heq)
    | none => simp only [hpb]
  | none =>
    cases hpb : (itemHints b).position with
    | some q =>
      simp only [hpa, hpb, toTopN] at hab
      rcases hab with hlt | ⟨heq, _⟩
      · exact absurd hlt (not_top_lt)
      · exact absurd heq (WithTop.top_ne_coe)
    | none =>
      simp only [hpa, hpb, toTopN] at hab
      rcases hab with hlt | ⟨_, hsnd⟩
      · exact absurd hlt (lt_irrefl _)
      · exact hsnd

theorem hintFree_sortItems : ∀ (n : ℕ) (xs : List SidebarItem), sizeOf xs ≤ n →
    hintFreeList (sortItems xs) = true := by
  intro n
  induction n with
  | zero =>
    intro xs h
    cases xs with
    | nil => simp at h
    | cons a l => simp at h
  | succ n ih =>
    intro xs hsz
    unfold sortItems
    rw [hintFreeList_eq_all, List.all_eq_true]
    intro y hy
    rcases List.mem_map.mp hy with ⟨z, hz, rfl⟩
    have hz' : z ∈ procList xs := (List.mem_insertionSort sortItemsLe).mp hz
    rw [procList_eq_map] at hz'
    rcases List.mem_map.mp hz' with ⟨x, hx, rfl⟩
    have hxsz : sizeOf x < sizeOf xs := List.sizeOf_lt_of_mem hx
    cases x with
    | note i l h =>
      simp [procOne, stripHints, hintFreeOne]
    | category label items linkId h =>
      have hitems : sizeOf items ≤ n := by
        have hlt : sizeOf items < sizeOf (SidebarItem.category label items linkId h) := by
          simp [SidebarItem.category.sizeOf_spec]
          omega
        omega
      have hrec := ih items hitems
      simp only [procOne, stripHints, hintFreeOne, Bool.and_eq_true, beq_self_eq_true,
        true_and]
      cases hrev : isRev h.reverse
      · simpa [hrev] using hrec
      · simp only [hrev, if_true]
        rw [hintFreeList_eq_all, List.all_eq_true]
        intro w hw
        rw [List.mem_reverse] at hw
        have := (List.all_eq_true.mp ((hintFreeList_eq_all _) ▸ hrec)) w hw
        exact this

/-- C4: `sortItems` recursively sorts each category's nested items first
(`procOne`), reverses the already-sorted nested list as a whole when the
originating note requested reverse order, then stably sorts the sibling
list by explicit numeric position if present and otherwise by path name
ascending (positioned items before unpositioned ones), and strips all
positional hints from the returned items: the result is the hint-stripped
image of a permutation of the processed items that is sorted for the
spec's sibling order, every returned item is recursively hint-free, and a
reverse-marked category's returned nested items are exactly the reverse of
its recursively sorted nested items. -/
theorem c4_theorem (sidebarItems : List SidebarItem) :
    (∃ ys : List SidebarItem,
      List.Perm ys (sidebarItems.map procOne) ∧
      List.Pairwise specSiblingLe ys ∧
      sortItems sidebarItems = ys.map stripHints) ∧
    hintFreeList (sortItems sidebarItems) = true ∧
    (∀ (label : String) (items : List SidebarItem) (linkId : String) (pos : Option Nat)
        (fn : Option String),
      sortItems [SidebarItem.category label items linkId ⟨pos, fn, some true⟩] =
        [SidebarItem.category label ((sortItems items).reverse) linkId noHints]) := by
  refine ⟨⟨List.insertionSort sortItemsLe (procList sidebarItems), ?_, ?_, ?_⟩, ?_, ?_⟩
  · rw [procList_eq_map]
    exact List.perm_insertionSort sortItemsLe _
  · exact List.Pairwise.imp (fun h => sortItemsLe_imp_spec _ _ h)
      (List.sorted_insertionSort sortItemsLe _)
  · unfold sortItems
    rfl
  · exact hintFree_sortItems (sizeOf sidebarItems) sidebarItems le_rfl
  · intro label items linkId pos fn
    conv_lhs => unfold sortItems
    rw [procList, procList]
    simp [List.insertionSort, List.orderedInsert, procOne, stripHints, isRev]

/-! ### Autogeneration (`defaultSidebarItemsGenerator`, claims C3, C9)

Thrown exceptions of the resolver: `DendronError` with status
`DOES_NOT_EXIST`, or a plain JavaScript error (`TypeError` from an
unguarded access, `RangeError` from a blown call stack). -/

inductive Thrown where
  | doesNotExist (id : String)
  | jsError (msg : String)
deriving DecidableEq, Repr

/-- The root sentinel `*`. -/
def ROOT_KEYWORD : String := "*"

/-- `findHierarchySources`: for the root sentinel, every note whose path
has exactly one dot-delimited segment and is not the literal `root`; for
any other id, the children of the note at that id, or a thrown
does-not-exist `DendronError`. -/
def findHierarchySources (notesById : NoteDict) (itemId : String) :
    Except Thrown (List String) :=
  if itemId = ROOT_KEYWORD then
    .ok (((dictValues notesById).filter
        (fun note => !(note.fname == "root") && (splitOnDot note.fname).length == 1)).map
      NoteProps.id)
  else
    match dictGet notesById itemId with
    | none => .error (.doesNotExist itemId)
    | some note => .ok note.children

/-- The positional hints `{position: fm.nav_order, fname: note.fname,
reverse: fm.sort_order === "reverse"}` attached by `generateSidebar`. -/
def positionalProps (note : NoteProps) : Hints :=
  ⟨(getPublishFM note).nav_order, some note.fname,
    some ((getPublishFM note).sort_order == some "reverse")⟩

/-- `generateSidebar` of `defaultSidebarItemsGenerator`: map each source
note id to a `note` item (no children) or a `category` item recursing into
the children.  The source reads `note.children` *before* its `if (!note)`
guard, so a dangling id throws a `TypeError`; recursion depth is fuel,
exhaustion being the JavaScript `RangeError`. -/
def generateSidebarE : Nat → NoteDict → List String → Except Thrown (List SidebarItem)
  | 0, _, _ => .error (.jsError "RangeError: Maximum call stack size exceeded")
  | fuel + 1, notesById, noteIds =>
    mapE
      (fun noteId =>
        match dictGet notesById noteId with
        | none =>
          .error (.jsError "TypeError: cannot destructure children of undefined")
        | some note =>
          if note.children.isEmpty then
            .ok (SidebarItem.note note.id note.title (positionalProps note))
          else
            (generateSidebarE fuel notesById note.children).map
              (fun items => SidebarItem.category note.title items note.id (positionalProps note)))
      noteIds

/-- `defaultSidebarItemsGenerator`: find the hierarchy sources, expand
them, and sort the result (`_.flow(generateSidebar, sortItems)`). -/
def defaultSidebarItemsGenerator (fuel : Nat) (notesById : NoteDict) (itemId : String) :
    Except Thrown (List SidebarItem) :=
  match findHierarchySources notesById itemId with
  | .error e => .error e
  | .ok hierarchySource =>
    match generateSidebarE fuel notesById hierarchySource with
    | .error e => .error e
    | .ok items => .ok (sortItems items)

/-- C3: the code does not satisfy the claim.  When a dangling child id
heads the list, `generateSidebar` evaluates `const { children } = note`
(and `getPublishFM(note)`) on `undefined` *before* its `if (!note)` guard
— the guard is dead code — so the expansion throws a `TypeError` instead
of skipping the unresolvable child. -/
theorem c3_theorem (notesById : NoteDict) (noteId : String) (rest : List String)
    (fuel : Nat) (h : dictGet notesById noteId = none) :
    generateSidebarE (fuel + 1) notesById (noteId :: rest) =
      .error (.jsError "TypeError: cannot destructure children of undefined") := by
  show mapE _ (noteId :: rest) = _
  rw [mapE, h]

/-- The one-note graph of claim C3 whose note has a dangling child
pointer. -/
def dictC3 : NoteDict :=
  [ ("n1", { id := "n1", fname := "n1", title := "N1", children := ["ghost"],
             vault := ⟨some "v1", "/v1"⟩, stub := false, schema := false,
             custom_nav_order := none, updated := 1, fm := ⟨false, none, none⟩ }) ]

/-- Witness for C3: expanding over `n1`'s children dereferences the
missing note `ghost` and throws. -/
theorem c3_witness :
    dictGet dictC3 "ghost" = none ∧
    generateSidebarE 5 dictC3 ["ghost"] =
      .error (.jsError "TypeError: cannot destructure children of undefined") :=
  ⟨rfl, c3_theorem dictC3 "ghost" [] 4 rfl⟩

/-- The note graph `{root, a, b, a.x}` of claim C9 (ids `root`, `a`, `b`,
`ax`). -/
def dictC9 : NoteDict :=
  [ ("root", { id := "root", fname := "root", title := "Root", children := ["a", "b"],
               vault := ⟨some "v1", "/v1"⟩, stub := false, schema := false,
               custom_nav_order := none, updated := 0, fm := ⟨false, none, none⟩ }),
    ("a", { id := "a", fname := "a", title := "A", children := ["ax"],
            vault := ⟨some "v1", "/v1"⟩, stub := false, schema := false,
            custom_nav_order := none, updated := 1, fm := ⟨false, none, none⟩ }),
    ("b", { id := "b", fname := "b", title := "B", children := [],
            vault := ⟨some "v1", "/v1"⟩, stub := false, schema := false,
            custom_nav_order := none, updated := 2, fm := ⟨false, none, none⟩ }),
    ("ax", { id := "ax", fname := "a.x", title := "X", children := [],
             vault := ⟨some "v1", "/v1"⟩, stub := false, schema := false,
             custom_nav_order := none, updated := 3, fm := ⟨false, none, none⟩ }) ]

theorem sortItems_dictC9 :
    sortItems
        [SidebarItem.category "A"
            [SidebarItem.note "ax" "X" ⟨none, some "a.x", some false⟩] "a"
            ⟨none, some "a", some false⟩,
          SidebarItem.note "b" "B" ⟨none, some "b", some false⟩] =
      [SidebarItem.category "A" [SidebarItem.note "ax" "X" noHints] "a" noHints,
        SidebarItem.note "b" "B" noHints] := by
  have hax : sortItems [SidebarItem.note "ax" "X" ⟨none, some "a.x", some false⟩] =
      [SidebarItem.note "ax" "X" noHints] := by
    unfold sortItems
    rw [procList, procList, procOne]
    simp [List.insertionSort, List.orderedInsert, stripHints]
  have hcat : procOne (SidebarItem.category "A"
      [SidebarItem.note "ax" "X" ⟨none, some "a.x", some false⟩] "a"
      ⟨none, some "a", some false⟩) =
      SidebarItem.category "A" [SidebarItem.note "ax" "X" noHints] "a"
        ⟨none, some "a", some false⟩ := by
    rw [procOne]
    simp [hax, isRev]
  have hb : procOne (SidebarItem.note "b" "B" ⟨none, some "b", some false⟩) =
      SidebarItem.note "b" "B" ⟨none, some "b", some false⟩ := by
    rw [procOne]
  have hle : sortItemsLe
      (SidebarItem.category "A" [SidebarItem.note "ax" "X" noHints] "a"
        ⟨none, some "a", some false⟩)
      (SidebarItem.note "b" "B" ⟨none, some "b", some false⟩) := by decide
  unfold sortItems
  rw [procList, procList, procList, hcat, hb]
  simp [List.insertionSort, List.orderedInsert, if_pos hle, stripHints]

/-- C9: auto-generation from the root sentinel.  (1) For `id = "*"` the
source set is exactly the ids of notes whose path has exactly one
dot-delimited segment and is not the literal `root`.  (2) A source note
with no children expands to a `note` item and one with children to a
`category` item recursing into its children (both carrying the note's
positional props).  (3) Over the graph `{root, a, b, a.x}` the generator
yields a category for `a` containing `x` and a leaf note for `b`, with
`root` excluded. -/
theorem c9_theorem :
    (∀ (notesById : NoteDict) (srcs : List String),
      findHierarchySources notesById ROOT_KEYWORD = .ok srcs →
      ∀ id', id' ∈ srcs ↔ ∃ n ∈ dictValues notesById,
        n.id = id' ∧ n.fname ≠ "root" ∧ (splitOnDot n.fname).length = 1) ∧
    (∀ (notesById : NoteDict) (fuel : Nat) (noteId : String) (note : NoteProps),
      dictGet notesById noteId = some note →
      (note.children = [] →
        generateSidebarE (fuel + 1) notesById [noteId] =
          .ok [SidebarItem.note note.id note.title (positionalProps note)]) ∧
      (note.children ≠ [] →
        generateSidebarE (fuel + 1) notesById [noteId] =
          (generateSidebarE fuel notesById note.children).map
            (fun items =>
              [SidebarItem.category note.title items note.id (positionalProps note)]))) ∧
    defaultSidebarItemsGenerator 10 dictC9 ROOT_KEYWORD =
      .ok [SidebarItem.category "A" [SidebarItem.note "ax" "X" noHints] "a" noHints,
        SidebarItem.note "b" "B" noHints] := by
  refine ⟨?_, ?_, ?_⟩
  · intro notesById srcs hsrc id'
    have hsrcs : srcs = ((dictValues notesById).filter
        (fun note => !(note.fname == "root") && (splitOnDot note.fname).length == 1)).map
          NoteProps.id := by
      have h2 : findHierarchySources notesById ROOT_KEYWORD =
          .ok (((dictValues notesById).filter
            (fun note => !(note.fname == "root") &&
              (splitOnDot note.fname).length == 1)).map NoteProps.id) := by
        unfold findHierarchySources
        rw [if_pos rfl]
      rw [h2] at hsrc
      exact (Except.ok.inj hsrc).symm
    subst hsrcs
    simp only [List.mem_map, List.mem_filter, Bool.and_eq_true, Bool.not_eq_true',
      beq_eq_false_iff_ne, beq_iff_eq]
    constructor
    · rintro ⟨n, ⟨hmem, hroot, hlen⟩, hid⟩
      exact ⟨n, hmem, hid, hroot, hlen⟩
    · rintro ⟨n, hmem, hid, hroot, hlen⟩
      exact ⟨n, ⟨hmem, hroot, hlen⟩, hid⟩
  · intro notesById fuel noteId note h
    constructor
    · intro hc
      show mapE _ [noteId] = _
      rw [mapE]
      simp only [h, hc, List.isEmpty_nil, if_pos]
      rw [mapE]
      rfl
    · intro hc
      show mapE _ [noteId] = _
      rw [mapE]
      simp only [h]
      rw [if_neg (by simpa [List.isEmpty_iff] using hc)]
      cases hg : generateSidebarE fuel notesById note.children with
      | error e => simp [hg, Except.map]
      | ok items => simp [hg, Except.map, mapE]
  · have h2 : generateSidebarE 10 dictC9 ["a", "b"] =
        .ok [SidebarItem.category "A"
              [SidebarItem.note "ax" "X" ⟨none, some "a.x", some false⟩] "a"
              ⟨none, some "a", some false⟩,
            SidebarItem.note "b" "B" ⟨none, some "b", some false⟩] := rfl
    show Except.ok (sortItems
        [SidebarItem.category "A"
            [SidebarItem.note "ax" "X" ⟨none, some "a.x", some false⟩] "a"
            ⟨none, some "a", some false⟩,
          SidebarItem.note "b" "B" ⟨none, some "b", some false⟩]) = _
    rw [sortItems_dictC9]

/-- Witness for C9 at concrete inputs: the source-set characterization over
`dictC9` (where `findHierarchySources` yields `["a","b"]` by computation)
and the leaf-note expansion of `b`. -/
theorem c9_witness :
    ("a" ∈ ["a", "b"] ↔ ∃ n ∈ dictValues dictC9,
      n.id = "a" ∧ n.fname ≠ "root" ∧ (splitOnDot n.fname).length = 1) ∧
    generateSidebarE 5 dictC9 ["b"] =
      .ok [SidebarItem.note "b" "B" ⟨none, some "b", some false⟩] :=
  ⟨c9_theorem.1 dictC9 ["a", "b"] rfl "a",
    (c9_theorem.2.1 dictC9 4 "b"
        { id := "b", fname := "b", title := "B", children := [],
          vault := ⟨some "v1", "/v1"⟩, stub := false, schema := false,
          custom_nav_order := none, updated := 2, fm := ⟨false, none, none⟩ }
        rfl).1 rfl⟩

/-! ### Reference resolution (`resolveItemId`, `getPriorityVaults`;
claims C6, C7) -/

/-- The payload of `DuplicateNoteBehavior`: an ordered list of vault names,
or an object naming a single preferred vault. -/
inductive DuplicatePayload where
  | vaultNames (names : List String)
  | vaultObj (name : Option String)
deriving DecidableEq, Repr

/-- `[...new Set(payload)]`: first-occurrence deduplication, preserving
order; `seen` are the values already emitted. -/
def dedupGo (seen : List String) : List String → List String
  | [] => []
  | x :: xs => if x ∈ seen then dedupGo seen xs else x :: dedupGo (x :: seen) xs

/-- `getPriorityVaults`: the list of vault names ordered by priority, or
the single preferred vault's name if truthy, or `undefined`. -/
def getPriorityVaults : Option DuplicatePayload → Option (List String)
  | some (.vaultNames names) => some (dedupGo [] names)
  | some (.vaultObj (some n)) => if n = "" then none else some [n]
  | some (.vaultObj none) => none
  | none => none

/-- The key under which a note is registered in the duplicate-selection
`Map` (`note.vault.name ?? note.vault.fsPath`). -/
def vaultKey (n : NoteProps) : String := n.vault.name.getD n.vault.fsPath

/-- The `possibleNotes` of `resolveItemId`: the direct id lookup if it
hits, otherwise every note whose path name matches. -/
def possibleNotes (notes : NoteDict) (sidebarId : String) : List NoteProps :=
  match dictGet notes sidebarId with
  | some n => [n]
  | none => (dictValues notes).filter (fun note => note.fname == sidebarId)

/-- `new Map(possibleNotes.map(note => [vaultKey, note])).get(u)`: in a
JavaScript `Map` later entries overwrite earlier ones with the same key,
so the last matching note wins. -/
def vaultMapGet (ns : List NoteProps) (u : String) : Option NoteProps :=
  ns.reverse.find? (fun n => vaultKey n == u)

/-- `map.has(u)` of the duplicate-selection `Map`. -/
def vaultHit (ns : List NoteProps) (u : String) : Bool :=
  (vaultMapGet ns u).isSome

/-- The duplicate-selection of `resolveItemId`: the priority vaults,
filtered to those present in the map, mapped to their notes, first
taken. -/
def selectByPriority (ns : List NoteProps) (dnb : Option DuplicatePayload) :
    Option NoteProps :=
  match getPriorityVaults dnb with
  | none => none
  | some pvs => ((pvs.filter (fun u => vaultHit ns u)).head?).bind (fun u => vaultMapGet ns u)

/-- `resolveItemId`: resolve a sidebar reference to a note id, applying
`duplicateNoteBehavior` when more than one note matches, defaulting to the
first match, and throwing a does-not-exist `DendronError` when there is
none. -/
def resolveItemId (notes : NoteDict) (dnb : Option DuplicatePayload)
    (sidebarId : String) : Except Thrown String :=
  let ns := possibleNotes notes sidebarId
  let viaDup := if 1 < ns.length then selectByPriority ns dnb else none
  match viaDup <|> ns.head? with
  | some note => .ok note.id
  | none => .error (.doesNotExist sidebarId)

theorem dedupGo_mem {x : String} : ∀ (seen l : List String), x ∈ dedupGo seen l → x ∈ l := by
  intro seen l
  induction l generalizing seen with
  | nil => intro h; rw [dedupGo] at h; cases h
  | cons a l ih =>
    intro h
    rw [dedupGo] at h
    by_cases ha : a ∈ seen
    · rw [if_pos ha] at h
      exact List.mem_cons_of_mem a (ih seen h)
    · rw [if_neg ha] at h
      rcases List.mem_cons.mp h with h | h
      · exact h ▸ List.mem_cons_self a l
      · exact List.mem_cons_of_mem a (ih (a :: seen) h)

theorem dedupGo_filter_head (m : String → Bool) (v : String) (hv : m v = true) :
    ∀ (p₁ : List String) (p₂ seen : List String),
      (∀ u ∈ p₁, m u = false) → (∀ u ∈ seen, m u = false) →
      ((dedupGo seen (p₁ ++ v :: p₂)).filter m).head? = some v := by
  intro p₁
  induction p₁ with
  | nil =>
    intro p₂ seen _ hseen
    rw [List.nil_append, dedupGo]
    have hvs : v ∉ seen := fun hmem => by
      have := hseen v hmem
      rw [hv] at this
      exact Bool.true_eq_false.mp this
    rw [if_neg hvs, List.filter_cons_of_pos hv]
    rfl
  | cons a p₁ ih =>
    intro p₂ seen hp hseen
    rw [List.cons_append, dedupGo]
    by_cases ha : a ∈ seen
    · rw [if_pos ha]
      exact ih p₂ seen (fun u hu => hp u (List.mem_cons_of_mem a hu)) hseen
    · rw [if_neg ha, List.filter_cons_of_neg
        (by simpa using hp a (List.mem_cons_self a p₁))]
      exact ih p₂ (a :: seen) (fun u hu => hp u (List.mem_cons_of_mem a hu))
        (fun u hu => by
          rcases List.mem_cons.mp hu with h | h
          · exact h ▸ hp a (List.mem_cons_self a p₁)
          · exact hseen u h)

theorem dedupGo_filter_nil (m : String → Bool) :
    ∀ (l seen : List String), (∀ u ∈ l, m u = false) →
      (dedupGo seen l).filter m = [] := by
  intro l seen hl
  rw [List.filter_eq_nil_iff]
  intro u hu
  have := hl u (dedupGo_mem seen l hu)
  simp [this]

/-- The two-vault duplicate graph of claim C6: notes `x1` (vault `v1`) and
`x2` (vault `v2`), both with path name `x`. -/
def dictC6 : NoteDict :=
  [ ("x1", { id := "x1", fname := "x", title := "X1", children := [],
             vault := ⟨some "v1", "/v1"⟩, stub := false, schema := false,
             custom_nav_order := none, updated := 1, fm := ⟨false, none, none⟩ }),
    ("x2", { id := "x2", fname := "x", title := "X2", children := [],
             vault := ⟨some "v2", "/v2"⟩, stub := false, schema := false,
             custom_nav_order := none, updated := 2, fm := ⟨false, none, none⟩ }) ]

/-- C6: duplicate-note resolution by vault priority.  (1) When a reference
matches more than one note and the payload is an ordered list of vault
names in which `v` is the first name carried by any matching note,
`resolveItemId` returns the id of a matching note in vault `v`.  (2) When
the payload list is empty or names no vault of any matching note, the
first match is used.  (3) For two notes with path `x` in vaults `v1`,`v2`
and payload `["v2"]`, the note in `v2` is selected. -/
theorem c6_theorem (notes : NoteDict) (dnb : Option DuplicatePayload) (sidebarId : String)
    (pvs p₁ p₂ : List String) (v : String) :
    ((1 < (possibleNotes notes sidebarId).length →
      dnb = some (.vaultNames pvs) →
      pvs = p₁ ++ v :: p₂ →
      (∀ u ∈ p₁, vaultHit (possibleNotes notes sidebarId) u = false) →
      vaultHit (possibleNotes notes sidebarId) v = true →
      ∃ n ∈ possibleNotes notes sidebarId, vaultKey n = v ∧
        resolveItemId notes dnb sidebarId = .ok n.id) ∧
    (∀ n₀ : NoteProps,
      (∀ u ∈ pvs, vaultHit (possibleNotes notes sidebarId) u = false) →
      dnb = some (.vaultNames pvs) →
      (possibleNotes notes sidebarId).head? = some n₀ →
      resolveItemId notes dnb sidebarId = .ok n₀.id)) ∧
    resolveItemId dictC6 (some (.vaultNames ["v2"])) "x" = .ok "x2" := by
  refine ⟨⟨?_, ?_⟩, rfl⟩
  · intro hlen hdnb hpvs hp₁ hv
    subst hdnb
    subst hpvs
    have hhead : ((dedupGo [] (p₁ ++ v :: p₂)).filter
        (fun u => vaultHit (possibleNotes notes sidebarId) u)).head? = some v :=
      dedupGo_filter_head _ v hv p₁ p₂ [] hp₁ (fun u hu => absurd hu (List.not_mem_nil u))
    have hsome : (vaultMapGet (possibleNotes notes sidebarId) v).isSome := hv
    obtain ⟨n, hn⟩ := Option.isSome_iff_exists.mp hsome
    have hn' : (possibleNotes notes sidebarId).reverse.find?
        (fun x => vaultKey x == v) = some n := hn
    have hmem : n ∈ possibleNotes notes sidebarId :=
      List.mem_reverse.mp (List.mem_of_find?_eq_some hn')
    have hkey : vaultKey n = v := by
      have h3 := List.find?_some hn'
      simpa [beq_iff_eq] using h3
    refine ⟨n, hmem, hkey, ?_⟩
    have hsel : selectByPriority (possibleNotes notes sidebarId)
        (some (.vaultNames (p₁ ++ v :: p₂))) = some n := by
      show ((dedupGo [] (p₁ ++ v :: p₂)).filter
          (fun u => vaultHit (possibleNotes notes sidebarId) u)).head?.bind
        (fun u => vaultMapGet (possibleNotes notes sidebarId) u) = some n
      rw [hhead]
      simpa using hn
    simp only [resolveItemId]
    rw [if_pos hlen, hsel]
    rfl
  · intro n₀ hall hdnb hhead
    subst hdnb
    have hsel : selectByPriority (possibleNotes notes sidebarId)
        (some (.vaultNames pvs)) = none := by
      show ((dedupGo [] pvs).filter
          (fun u => vaultHit (possibleNotes notes sidebarId) u)).head?.bind
        (fun u => vaultMapGet (possibleNotes notes sidebarId) u) = none
      rw [dedupGo_filter_nil _ pvs [] hall]
      rfl
    simp only [resolveItemId]
    have hif : (if 1 < (possibleNotes notes sidebarId).length then
        selectByPriority (possibleNotes notes sidebarId) (some (.vaultNames pvs))
      else none) = none := by
      by_cases h : 1 < (possibleNotes notes sidebarId).length
      · rw [if_pos h, hsel]
      · rw [if_neg h]
    rw [hif]
    show (match (possibleNotes notes sidebarId).head? with
      | some note => Except.ok note.id
      | none => Except.error (Thrown.doesNotExist sidebarId)) = _
    rw [hhead]

/-- Witness for C6 at concrete inputs: over `dictC6`, payload `["v2"]`
selects the `v2` note, and the empty payload falls back to the first
match `x1`. -/
theorem c6_witness :
    (1 < (possibleNotes dictC6 "x").length ∧
      ∃ n ∈ possibleNotes dictC6 "x", vaultKey n = "v2" ∧
        resolveItemId dictC6 (some (.vaultNames ["v2"])) "x" = .ok n.id) ∧
    resolveItemId dictC6 (some (.vaultNames [])) "x" = .ok "x1" :=
  ⟨⟨by decide,
    (c6_theorem dictC6 (some (.vaultNames ["v2"])) "x" ["v2"] [] [] "v2").1.1
      (by decide) rfl rfl (by decide) (by decide)⟩,
    (c6_theorem dictC6 (some (.vaultNames [])) "x" [] [] [] "v2").1.2
      { id := "x1", fname := "x", title := "X1", children := [],
        vault := ⟨some "v1", "/v1"⟩, stub := false, schema := false,
        custom_nav_order := none, updated := 1, fm := ⟨false, none, none⟩ }
      (by decide) rfl rfl⟩

/-! ### Tree Menu Builder (`TreeUtils.generateTreeData`, claim C8) -/

/-- `String.prototype.startsWith`, on the character data. -/
def strStartsWith (s pre : String) : Bool := pre.data.isPrefixOf s.data

inductive TreeMenuNodeIcon where
  | bookOutlined
  | numberOutlined
  | plusOutlined
deriving DecidableEq, Repr

/-- A renderable tree-menu node (`TreeMenuNode`); `contextValue` is never
set by `generateTreeData` and is omitted. -/
inductive TreeMenuNode where
  | mk (key : String) (title : String) (icon : Option TreeMenuNodeIcon)
      (hasTitleNumberOutlined : Bool) (vaultName : String) (navExclude : Bool)
      (children : List TreeMenuNode)

/-- The two auxiliary indexes threaded through the walk
(`child2parent`, `notesLabelById`), in insertion order. -/
structure TreeState where
  child2parent : List (String × Option String)
  notesLabelById : List (String × String)
deriving Repr

/-- `if (child2parent[note.id] === undefined) child2parent[note.id] = parent`:
record the parent only if the key is absent (a recorded `null` parent
counts as present). -/
def setIfAbsentC2P (m : List (String × Option String)) (k : String) (v : Option String) :
    List (String × Option String) :=
  if (m.find? (fun p => p.fst == k)).isSome then m else m ++ [(k, v)]

/-- `notesLabelById[note.id] = title`: unconditional assignment (an
existing key keeps its position, a new key is appended). -/
def setLabel (m : List (String × String)) (k v : String) : List (String × String) :=
  if (m.find? (fun p => p.fst == k)).isSome then
    m.map (fun p => if p.fst == k then (k, v) else p)
  else m ++ [(k, v)]

/-- The note id referenced by a resolved item (`itemToNote`): its own id
for a note item, the category link's id for a category. -/
def itemNoteId : SidebarItem → String
  | .note i _ _ => i
  | .category _ _ link _ => link

/-- `sidebarItem.label` (always present on resolved items, so
`sidebarItem.label ?? note.title` is the label). -/
def itemLabel : SidebarItem → String
  | .note _ l _ => l
  | .category l _ _ _ => l

mutual
/-- `itemToTreeMenuNode`: look the item's note up; if absent return
`undefined` without touching the indexes or visiting nested items;
otherwise build the node (icon policy: schema → book, tags root → number,
stub → plus), record the label, record the parent first-seen-wins, and for
a category recurse into the nested items. -/
def itemToTreeMenuNode (noteDict : NoteDict) (sidebarItem : SidebarItem)
    (parent : Option String) (st : TreeState) : Option TreeMenuNode × TreeState :=
  match dictGet noteDict (itemNoteId sidebarItem) with
  | none => (none, st)
  | some note =>
    let icon : Option TreeMenuNodeIcon :=
      if note.schema then some .bookOutlined
      else if strLower note.fname == tagsHierarchyBase then some .numberOutlined
      else if note.stub then some .plusOutlined
      else none
    let title := itemLabel sidebarItem
    let st1 : TreeState :=
      { st with notesLabelById := setLabel st.notesLabelById note.id title }
    let st2 : TreeState :=
      { st1 with child2parent := setIfAbsentC2P st1.child2parent note.id parent }
    match sidebarItem with
    | .note _ _ _ =>
      (some (.mk note.id title icon (strStartsWith note.fname tagsHierarchy)
        (vaultGetName note.vault) (getPublishFM note).nav_exclude []), st2)
    | .category _ items _ _ =>
      let r := itemsToTreeMenuNodes noteDict items (some note.id) st2
      (some (.mk note.id title icon (strStartsWith note.fname tagsHierarchy)
        (vaultGetName note.vault) (getPublishFM note).nav_exclude r.fst), r.snd)
termination_by (sizeOf sidebarItem, 0)

/-- The `.map(...).filter(Boolean)` walk over a sibling list, threading the
mutated indexes left to right. -/
def itemsToTreeMenuNodes (noteDict : NoteDict) (items : List SidebarItem)
    (parent : Option String) (st : TreeState) : List TreeMenuNode × TreeState :=
  match items with
  | [] => ([], st)
  | i :: rest =>
    let r1 := itemToTreeMenuNode noteDict i parent st
    let r2 := itemsToTreeMenuNodes noteDict rest parent r1.snd
    (match r1.fst with
      | some n => n :: r2.fst
      | none => r2.fst,
     r2.snd)
termination_by (sizeOf items, 1)
end

/-- `TreeMenu`: roots plus the two auxiliary indexes. -/
structure TreeMenu where
  roots : List TreeMenuNode
  child2parent : List (String × Option String)
  notesLabelById : List (String × String)

/-- `TreeUtils.generateTreeData`: walk every sidebar (each with fresh
indexes) and keep the first resulting tree menu, or an empty one. -/
def generateTreeData (noteDict : NoteDict)
    (sidebars : List (String × List SidebarItem)) : TreeMenu :=
  let treeMenus := sidebars.map (fun p =>
    let r := itemsToTreeMenuNodes noteDict p.snd none ⟨[], []⟩
    TreeMenu.mk r.fst r.snd.child2parent r.snd.notesLabelById)
  match treeMenus.head? with
  | some m => m
  | none => ⟨[], [], []⟩

theorem itemsToTreeMenuNodes_skip (noteDict : NoteDict) (item : SidebarItem)
    (h : dictGet noteDict (itemNoteId item) = none) (post : List SidebarItem) :
    ∀ (pre : List SidebarItem) (parent : Option String) (st : TreeState),
      itemsToTreeMenuNodes noteDict (pre ++ item :: post) parent st =
        itemsToTreeMenuNodes noteDict (pre ++ post) parent st := by
  intro pre
  induction pre with
  | nil =>
    intro parent st
    rw [List.nil_append, List.nil_append, itemsToTreeMenuNodes]
    have h1 : itemToTreeMenuNode noteDict item parent st = (none, st) := by
      rw [itemToTreeMenuNode, h]
    rw [h1]
  | cons a pre ih =>
    intro parent st
    rw [List.cons_append, List.cons_append, itemsToTreeMenuNodes, itemsToTreeMenuNodes]
    rw [ih]

/-- C8: the Tree Menu Builder silently drops unresolvable branches.  When
an item's note id (its own id, or its category link's id) is absent from
the note collection, `itemToTreeMenuNode` produces no node and leaves both
indexes untouched (so nested items are never visited), and the whole build
over a sidebar containing that item equals the build with the item
removed — its siblings are still processed and the build does not fail. -/
theorem c8_theorem (noteDict : NoteDict) (item : SidebarItem)
    (h : dictGet noteDict (itemNoteId item) = none) :
    (∀ (parent : Option String) (st : TreeState),
      itemToTreeMenuNode noteDict item parent st = (none, st)) ∧
    (∀ (name : String) (pre post : List SidebarItem),
      generateTreeData noteDict [(name, pre ++ item :: post)] =
        generateTreeData noteDict [(name, pre ++ post)]) := by
  constructor
  · intro parent st
    rw [itemToTreeMenuNode, h]
  · intro name pre post
    show (let r := itemsToTreeMenuNodes noteDict (pre ++ item :: post) none ⟨[], []⟩
      TreeMenu.mk r.fst r.snd.child2parent r.snd.notesLabelById) =
      (let r := itemsToTreeMenuNodes noteDict (pre ++ post) none ⟨[], []⟩
      TreeMenu.mk r.fst r.snd.child2parent r.snd.notesLabelById)
    rw [itemsToTreeMenuNodes_skip noteDict item h post pre none ⟨[], []⟩]

/-- Witness for C8: a sidebar whose only item references a note absent
from an empty note collection. -/
theorem c8_witness :
    dictGet ([] : NoteDict) "ghost" = none ∧
    itemToTreeMenuNode [] (SidebarItem.note "ghost" "G" noHints) none ⟨[], []⟩ =
      (none, ⟨[], []⟩) ∧
    generateTreeData [] [("s", [SidebarItem.note "ghost" "G" noHints])] =
      generateTreeData [] [("s", [])] :=
  ⟨rfl, (c8_theorem [] (SidebarItem.note "ghost" "G" noHints) rfl).1 none ⟨[], []⟩,
    (c8_theorem [] (SidebarItem.note "ghost" "G" noHints) rfl).2 "s" [] []⟩

/-! ### Sidebar processing (`processSiderbar` / `processSidebars`,
claim C7) -/

/-- `SidebarItemConfig`: the validated, unresolved configuration items. -/
inductive SidebarItemConfig where
  | note (id : String) (label : String)
  | category (label : String) (items : List SidebarItemConfig) (linkId : String)
  | autogenerated (id : String)

/-- The `DendronResult` error type after `fromThrowable`: a thrown
`DendronError` passes through (here only does-not-exist reference errors
arise), anything else is normalized to an invalid-config error. -/
inductive DErr where
  | doesNotExist (id : String)
  | invalidConfig
deriving DecidableEq, Repr

mutual
/-- `processItem`: resolve the item's reference (category links before
nested items; the root sentinel of an autogenerated item is left alone),
then expand: a note stays a single item, a category recurses into its
nested items and flattens them, an autogenerated item runs the
generator. -/
def processItem (fuel : Nat) (notes : NoteDict) (dnb : Option DuplicatePayload) :
    SidebarItemConfig → Except Thrown (List SidebarItem)
  | .note id label =>
    (resolveItemId notes dnb id).map (fun nid => [SidebarItem.note nid label noHints])
  | .category label items linkId =>
    match resolveItemId notes dnb linkId with
    | .error e => .error e
    | .ok nid =>
      (processItems fuel notes dnb items).map
        (fun ls => [SidebarItem.category label ls.flatten nid noHints])
  | .autogenerated id =>
    if id = ROOT_KEYWORD then defaultSidebarItemsGenerator fuel notes ROOT_KEYWORD
    else
      match resolveItemId notes dnb id with
      | .error e => .error e
      | .ok nid => defaultSidebarItemsGenerator fuel notes nid
termination_by itemCfg => (sizeOf itemCfg, 0)

/-- `item.items.map(processItem)` (the `.flat()` is applied by the
caller). -/
def processItems (fuel : Nat) (notes : NoteDict) (dnb : Option DuplicatePayload) :
    List SidebarItemConfig → Except Thrown (List (List SidebarItem))
  | [] => .ok []
  | i :: rest =>
    match processItem fuel notes dnb i with
    | .error e => .error e
    | .ok l => (processItems fuel notes dnb rest).map (fun ls => l :: ls)
termination_by items => (sizeOf items, 1)
end

/-- `fromThrowable(processItem, ...)`: a thrown `DendronError` is kept,
any other exception becomes the invalid-config error. -/
def safeProcessItem (fuel : Nat) (notes : NoteDict) (dnb : Option DuplicatePayload)
    (itemCfg : SidebarItemConfig) : Except DErr (List SidebarItem) :=
  match processItem fuel notes dnb itemCfg with
  | .ok l => .ok l
  | .error (.doesNotExist id) => .error (.doesNotExist id)
  | .error (.jsError _) => .error .invalidConfig

/-- `Result.combine`: all values, or the first error in order. -/
def combineResults : List (Except ε α) → Except ε (List α)
  | [] => .ok []
  | .error e :: _ => .error e
  | .ok a :: rest => (combineResults rest).map (fun as' => a :: as')

/-- `processSiderbar` (source spelling): process every item of one sidebar
and flatten, failing on the first item error. -/
def processSiderbar (fuel : Nat) (notes : NoteDict) (dnb : Option DuplicatePayload)
    (sidebar : List SidebarItemConfig) : Except DErr (List SidebarItem) :=
  (combineResults (sidebar.map (safeProcessItem fuel notes dnb))).map
    (fun xs => xs.flatten)

/-- `processSidebars`: process every named sidebar, failing on the first
error across all sidebars; the resulting entries form the `Sidebars`
mapping. -/
def processSidebars (fuel : Nat) (notes : NoteDict) (dnb : Option DuplicatePayload)
    (sidebars : List (String × List SidebarItemConfig)) :
    Except DErr (List (String × List SidebarItem)) :=
  combineResults (sidebars.map (fun p =>
    (processSiderbar fuel notes dnb p.snd).map (fun v => (p.fst, v))))

/-- A sidebar reference is resolvable when `possibleNotes` is nonempty. -/
def resolvableB (notes : NoteDict) (id : String) : Bool :=
  !(possibleNotes notes id).isEmpty

mutual
/-- The configuration contains a reference (note id, category link, or
non-root autogeneration anchor) that no note matches. -/
def hasBadRefB (notes : NoteDict) : SidebarItemConfig → Bool
  | .note id _ => !(resolvableB notes id)
  | .category _ items linkId => (!(resolvableB notes linkId)) || hasBadRefList notes items
  | .autogenerated id => (!(id == ROOT_KEYWORD)) && !(resolvableB notes id)
termination_by itemCfg => (sizeOf itemCfg, 0)

/-- Some item of the list contains an unresolvable reference. -/
def hasBadRefList (notes : NoteDict) : List SidebarItemConfig → Bool
  | [] => false
  | x :: xs => hasBadRefB notes x || hasBadRefList notes xs
termination_by items => (sizeOf items, 1)
end

theorem resolveItemId_of_not_resolvable (notes : NoteDict) (dnb : Option DuplicatePayload)
    (id : String) (h : resolvableB notes id = false) :
    resolveItemId notes dnb id = .error (.doesNotExist id) := by
  have hns : possibleNotes notes id = [] := by
    have h2 : (possibleNotes notes id).isEmpty = true := by
      simpa [resolvableB] using h
    exact List.isEmpty_iff.mp h2
  simp only [resolveItemId]
  rw [hns]
  rfl

theorem selectByPriority_mem {ns : List NoteProps} {dnb : Option DuplicatePayload}
    {m : NoteProps} (h : selectByPriority ns dnb = some m) : m ∈ ns := by
  unfold selectByPriority at h
  cases hg : getPriorityVaults dnb with
  | none => rw [hg] at h; cases h
  | some pvs =>
    rw [hg] at h
    rcases Option.bind_eq_some.mp h with ⟨u, _, hu2⟩
    have hu2' : ns.reverse.find? (fun n => vaultKey n == u) = some m := hu2
    exact List.mem_reverse.mp (List.mem_of_find?_eq_some hu2')

theorem resolveItemId_ok_mem {notes : NoteDict} {dnb : Option DuplicatePayload}
    {id nid : String} (h : resolveItemId notes dnb id = .ok nid) :
    ∃ n ∈ possibleNotes notes id, nid = n.id := by
  simp only [resolveItemId] at h
  cases hv : (if 1 < (possibleNotes notes id).length then
      selectByPriority (possibleNotes notes id) dnb else none) with
  | some m =>
    rw [hv] at h
    have h2 : Except.ok (ε := Thrown) m.id = Except.ok nid := h
    have hm : selectByPriority (possibleNotes notes id) dnb = some m := by
      by_cases hlen : 1 < (possibleNotes notes id).length
      · rwa [if_pos hlen] at hv
      · rw [if_neg hlen] at hv; cases hv
    exact ⟨m, selectByPriority_mem hm, (Except.ok.inj h2).symm⟩
  | none =>
    rw [hv] at h
    cases hns : possibleNotes notes id with
    | nil =>
      rw [hns] at h
      cases h
    | cons n rest =>
      rw [hns] at h
      have h2 : Except.ok (ε := Thrown) n.id = Except.ok nid := h
      exact ⟨n, hns ▸ List.mem_cons_self n rest, (Except.ok.inj h2).symm⟩

theorem dictGet_mem {notes : NoteDict} {k : String} {n : NoteProps}
    (h : dictGet notes k = some n) : (k, n) ∈ notes := by
  unfold dictGet at h
  rcases Option.map_eq_some'.mp h with ⟨p, hp, hpn⟩
  have hk : p.fst = k := by
    have := List.find?_some hp
    simpa [beq_iff_eq] using this
  have hmem := List.mem_of_find?_eq_some hp
  have : p = (k, n) := by
    cases p
    simp_all
  exact this ▸ hmem

theorem dictGet_isSome_of_key {notes : NoteDict} {k : String} {n : NoteProps}
    (h : (k, n) ∈ notes) : (dictGet notes k).isSome = true := by
  unfold dictGet
  have h2 : (List.find? (fun p => p.fst == k) notes).isSome = true := by
    rw [List.find?_isSome]
    exact ⟨(k, n), h, by simp⟩
  cases hf : List.find? (fun p => p.fst == k) notes with
  | none => rw [hf] at h2; cases h2
  | some p => rfl

/-- Under well-keyed notes, a successfully resolved reference is a note id
whose direct lookup succeeds. -/
theorem resolveItemId_ok_isSome {notes : NoteDict} {dnb : Option DuplicatePayload}
    {id nid : String} (HI : ∀ p ∈ notes, p.snd.id = p.fst)
    (h : resolveItemId notes dnb id = .ok nid) :
    (dictGet notes nid).isSome = true := by
  rcases resolveItemId_ok_mem h with ⟨n, hn, rfl⟩
  unfold possibleNotes at hn
  cases hd : dictGet notes id with
  | some m =>
    rw [hd] at hn
    have hm : n = m := by simpa using hn
    subst hm
    have hmem := dictGet_mem hd
    have hid := HI (id, n) hmem
    simp only at hid
    rw [hid]
    exact dictGet_isSome_of_key hmem
  | none =>
    rw [hd] at hn
    have hn2 : n ∈ dictValues notes := List.mem_of_mem_filter hn
    rcases List.mem_map.mp hn2 with ⟨p, hp, hpn⟩
    have hid := HI p hp
    have : (n.id, n) ∈ notes := by
      have : p = (n.id, n) := by
        cases p
        simp only at hpn hid
        rw [hpn] at hid ⊢
        rw [hid]
      exact this ▸ hp
    exact dictGet_isSome_of_key this

theorem mapE_ok {f : α → Except ε β} :
    ∀ {l : List α}, (∀ a ∈ l, ∃ b, f a = .ok b) → ∃ bs, mapE f l = .ok bs := by
  intro l
  induction l with
  | nil => intro _; exact ⟨[], rfl⟩
  | cons a as' ih =>
    intro h
    rcases h a (List.mem_cons_self a as') with ⟨b, hb⟩
    rcases ih (fun x hx => h x (List.mem_cons_of_mem a hx)) with ⟨bs, hbs⟩
    refine ⟨b :: bs, ?_⟩
    rw [mapE, hb, hbs]
    rfl

theorem resolveItemId_of_resolvable (notes : NoteDict) (dnb : Option DuplicatePayload)
    (id : String) (h : resolvableB notes id = true) :
    ∃ nid, resolveItemId notes dnb id = .ok nid := by
  have hne : possibleNotes notes id ≠ [] := by
    simpa [resolvableB, List.isEmpty_iff] using h
  simp only [resolveItemId]
  cases hv : (if 1 < (possibleNotes notes id).length then
      selectByPriority (possibleNotes notes id) dnb else none) with
  | some m => exact ⟨m.id, rfl⟩
  | none =>
    cases hns : possibleNotes notes id with
    | nil => exact absurd hns hne
    | cons n rest => exact ⟨n.id, rfl⟩

theorem generateSidebarE_ok (notes : NoteDict) (rank : String → Nat)
    (HR : ∀ p ∈ notes, ∀ c ∈ p.snd.children,
      (dictGet notes c).isSome = true ∧ rank c < rank p.fst) :
    ∀ (f : Nat) (ids : List String), 0 < f →
      (∀ i ∈ ids, (dictGet notes i).isSome = true ∧ rank i < f) →
      ∃ out, generateSidebarE f notes ids = .ok out := by
  intro f
  induction f with
  | zero => intro ids h0 _; exact absurd h0 (lt_irrefl 0)
  | succ f ih =>
    intro ids _ hids
    show ∃ out, mapE _ ids = .ok out
    apply mapE_ok
    intro i hi
    rcases hids i hi with ⟨hsome, hrank⟩
    rcases Option.isSome_iff_exists.mp hsome with ⟨note, hnote⟩
    simp only [hnote]
    by_cases hc : note.children.isEmpty
    · rw [if_pos hc]
      exact ⟨_, rfl⟩
    · rw [if_neg hc]
      have hpair : (i, note) ∈ notes := dictGet_mem hnote
      have hch := HR (i, note) hpair
      have hpos : 0 < f := by
        cases hcc : note.children with
        | nil => rw [hcc] at hc; exact absurd rfl hc
        | cons c cs =>
          have h1 : rank c < rank i :=
            (hch c (by rw [hcc]; exact List.mem_cons_self c cs)).2
          omega
      have hcond : ∀ c ∈ note.children, (dictGet notes c).isSome = true ∧ rank c < f := by
        intro c hc2
        have h1 : rank c < rank i := (hch c hc2).2
        exact ⟨(hch c hc2).1, by omega⟩
      rcases ih note.children hpos hcond with ⟨out, hout⟩
      rw [hout]
      exact ⟨_, rfl⟩

theorem defaultGen_ok (notes : NoteDict) (rank : String → Nat) (fuel : Nat)
    (HI : ∀ p ∈ notes, p.snd.id = p.fst)
    (HR : ∀ p ∈ notes, ∀ c ∈ p.snd.children,
      (dictGet notes c).isSome = true ∧ rank c < rank p.fst)
    (HFuel : ∀ p ∈ notes, rank p.fst < fuel) (hfuel : 0 < fuel) :
    ∀ rid, (rid = ROOT_KEYWORD ∨ (dictGet notes rid).isSome = true) →
      ∃ out, defaultSidebarItemsGenerator fuel notes rid = .ok out := by
  intro rid hrid
  unfold defaultSidebarItemsGenerator
  by_cases hr : rid = ROOT_KEYWORD
  · subst hr
    have hfind : findHierarchySources notes ROOT_KEYWORD =
        .ok (((dictValues notes).filter
          (fun note => !(note.fname == "root") &&
            (splitOnDot note.fname).length == 1)).map NoteProps.id) := by
      unfold findHierarchySources
      rw [if_pos rfl]
    rw [hfind]
    have hsrcs : ∀ i ∈ ((dictValues notes).filter
        (fun note => !(note.fname == "root") &&
          (splitOnDot note.fname).length == 1)).map NoteProps.id,
        (dictGet notes i).isSome = true ∧ rank i < fuel := by
      intro i hi
      rcases List.mem_map.mp hi with ⟨n, hn, rfl⟩
      have hn2 : n ∈ dictValues notes := List.mem_of_mem_filter hn
      rcases List.mem_map.mp hn2 with ⟨p, hp, hpn⟩
      have hid := HI p hp
      have hpair : (n.id, n) ∈ notes := by
        have heq : p = (n.id, n) := by
          cases p
          simp only at hpn hid
          rw [hpn] at hid ⊢
          rw [hid]
        exact heq ▸ hp
      refine ⟨dictGet_isSome_of_key hpair, ?_⟩
      have h3 := HFuel p hp
      have : n.id = p.fst := by
        cases p
        simp only at hpn hid ⊢
        rw [hpn] at hid
        exact hid
      rw [this]
      exact h3
    rcases generateSidebarE_ok notes rank HR fuel _ hfuel hsrcs with ⟨out, hout⟩
    exact ⟨sortItems out, by simp only [hfind, hout]⟩
  · have hsome : (dictGet notes rid).isSome = true := hrid.resolve_left hr
    obtain ⟨note, hnote⟩ := Option.isSome_iff_exists.mp hsome
    have hfind : findHierarchySources notes rid = .ok note.children := by
      unfold findHierarchySources
      rw [if_neg hr, hnote]
    rw [hfind]
    have hpair := dictGet_mem hnote
    have hcond : ∀ c ∈ note.children, (dictGet notes c).isSome = true ∧ rank c < fuel := by
      intro c hc
      have h1 := HR (rid, note) hpair c hc
      have h2 := HFuel (rid, note) hpair
      exact ⟨h1.1, by omega⟩
    rcases generateSidebarE_ok notes rank HR fuel note.children hfuel hcond with ⟨out, hout⟩
    exact ⟨sortItems out, by simp only [hfind, hout]⟩

theorem hasBadRefList_iff (notes : NoteDict) :
    ∀ l, hasBadRefList notes l = true ↔ ∃ x ∈ l, hasBadRefB notes x = true := by
  intro l
  induction l with
  | nil =>
    rw [hasBadRefList]
    simp
  | cons x xs ih =>
    rw [hasBadRefList]
    rw [Bool.or_eq_true, ih]
    constructor
    · rintro (h | ⟨y, hy, hb⟩)
      · exact ⟨x, List.mem_cons_self x xs, h⟩
      · exact ⟨y, List.mem_cons_of_mem x hy, hb⟩
    · rintro ⟨y, hy, hb⟩
      rcases List.mem_cons.mp hy with rfl | hy2
      · exact Or.inl hb
      · exact Or.inr ⟨y, hy2, hb⟩

theorem combineResults_ok {ε α : Type} {l : List (Except ε α)}
    (h : ∀ x ∈ l, ∃ a, x = .ok a) : ∃ out, combineResults l = .ok out := by
  induction l with
  | nil => exact ⟨[], rfl⟩
  | cons x xs ih =>
    rcases h x (List.mem_cons_self x xs) with ⟨a, rfl⟩
    rcases ih (fun y hy => h y (List.mem_cons_of_mem _ hy)) with ⟨out, hout⟩
    exact ⟨a :: out, by rw [combineResults, hout]; rfl⟩

theorem combineResults_err {α : Type} {l : List (Except DErr α)} {P : String → Prop}
    (hall : ∀ x ∈ l, (∃ a, x = .ok a) ∨ ∃ id, P id ∧ x = .error (.doesNotExist id))
    (hbad : ∃ x ∈ l, ∀ a, x ≠ .ok a) :
    ∃ id, P id ∧ combineResults l = .error (.doesNotExist id) := by
  induction l with
  | nil =>
    rcases hbad with ⟨x, hx, _⟩
    cases hx
  | cons x xs ih =>
    rcases hall x (List.mem_cons_self x xs) with ⟨a, rfl⟩ | ⟨id, hP, rfl⟩
    · have hbad' : ∃ y ∈ xs, ∀ a, y ≠ .ok a := by
        rcases hbad with ⟨y, hy, hne⟩
        rcases List.mem_cons.mp hy with rfl | hy2
        · exact absurd rfl (hne a)
        · exact ⟨y, hy2, hne⟩
      rcases ih (fun y hy => hall y (List.mem_cons_of_mem _ hy)) hbad' with ⟨id, hP, hres⟩
      exact ⟨id, hP, by rw [combineResults, hres]; rfl⟩
    · exact ⟨id, hP, by rw [combineResults]⟩

theorem processClassified (fuel : Nat) (notes : NoteDict) (dnb : Option DuplicatePayload)
    (rank : String → Nat)
    (HI : ∀ p ∈ notes, p.snd.id = p.fst)
    (HR : ∀ p ∈ notes, ∀ c ∈ p.snd.children,
      (dictGet notes c).isSome = true ∧ rank c < rank p.fst)
    (HFuel : ∀ p ∈ notes, rank p.fst < fuel)
    (hfuel : 0 < fuel) :
    ∀ N : ℕ,
      (∀ itemCfg : SidebarItemConfig, sizeOf itemCfg ≤ N →
        (hasBadRefB notes itemCfg = false →
          ∃ out, processItem fuel notes dnb itemCfg = .ok out) ∧
        (hasBadRefB notes itemCfg = true →
          ∃ id, resolvableB notes id = false ∧
            processItem fuel notes dnb itemCfg = .error (.doesNotExist id))) ∧
      (∀ items : List SidebarItemConfig, sizeOf items ≤ N →
        (hasBadRefList notes items = false →
          ∃ out, processItems fuel notes dnb items = .ok out) ∧
        (hasBadRefList notes items = true →
          ∃ id, resolvableB notes id = false ∧
            processItems fuel notes dnb items = .error (.doesNotExist id))) := by
  intro N
  induction N with
  | zero =>
    constructor
    · intro itemCfg h
      cases itemCfg <;> simp at h
    · intro items h
      cases items <;> simp at h
  | succ N ih =>
    constructor
    · intro itemCfg hsz
      cases itemCfg with
      | note id label =>
        constructor
        · intro hgood
          have hres : resolvableB notes id = true := by
            rw [hasBadRefB] at hgood
            simpa using hgood
          rcases resolveItemId_of_resolvable notes dnb id hres with ⟨nid, hnid⟩
          exact ⟨[SidebarItem.note nid label noHints],
            by simp only [processItem, hnid, Except.map]⟩
        · intro hbad
          have hres : resolvableB notes id = false := by
            rw [hasBadRefB] at hbad
            simpa using hbad
          exact ⟨id, hres, by
            simp only [processItem, resolveItemId_of_not_resolvable notes dnb id hres,
              Except.map]⟩
      | category label items linkId =>
        have hitems_sz : sizeOf items ≤ N := by
          have h2 : sizeOf items <
              sizeOf (SidebarItemConfig.category label items linkId) := by
            simp [SidebarItemConfig.category.sizeOf_spec]
            omega
          omega
        constructor
        · intro hgood
          rw [hasBadRefB] at hgood
          have h1 : resolvableB notes linkId = true := by
            have := (Bool.or_eq_false_iff.mp hgood).1
            simpa using this
          have h2 : hasBadRefList notes items = false := (Bool.or_eq_false_iff.mp hgood).2
          rcases resolveItemId_of_resolvable notes dnb linkId h1 with ⟨nid, hnid⟩
          rcases (ih.2 items hitems_sz).1 h2 with ⟨out, hout⟩
          exact ⟨[SidebarItem.category label out.flatten nid noHints],
            by simp only [processItem, hnid, hout, Except.map]⟩
        · intro hbad
          rw [hasBadRefB] at hbad
          cases h1 : resolvableB notes linkId with
          | false =>
            exact ⟨linkId, h1, by
              simp only [processItem, resolveItemId_of_not_resolvable notes dnb linkId h1]⟩
          | true =>
            have h2 : hasBadRefList notes items = true := by
              rw [h1] at hbad
              simpa using hbad
            rcases resolveItemId_of_resolvable notes dnb linkId h1 with ⟨nid, hnid⟩
            rcases (ih.2 items hitems_sz).2 h2 with ⟨id, hidres, hiderr⟩
            exact ⟨id, hidres, by simp only [processItem, hnid, hiderr, Except.map]⟩
      | autogenerated id =>
        constructor
        · intro hgood
          by_cases hr : id = ROOT_KEYWORD
          · rcases defaultGen_ok notes rank fuel HI HR HFuel hfuel ROOT_KEYWORD
              (Or.inl rfl) with ⟨out, hout⟩
            exact ⟨out, by rw [processItem, if_pos hr, hout]⟩
          · rw [hasBadRefB] at hgood
            have h1 : resolvableB notes id = true := by
              have hne : (id == ROOT_KEYWORD) = false := beq_eq_false_iff_ne.mpr hr
              rw [hne] at hgood
              simpa using hgood
            rcases resolveItemId_of_resolvable notes dnb id h1 with ⟨nid, hnid⟩
            have hnidsome := resolveItemId_ok_isSome HI hnid
            rcases defaultGen_ok notes rank fuel HI HR HFuel hfuel nid
              (Or.inr hnidsome) with ⟨out, hout⟩
            exact ⟨out, by rw [processItem, if_neg hr]; simp only [hnid, hout]⟩
        · intro hbad
          rw [hasBadRefB] at hbad
          have hr : id ≠ ROOT_KEYWORD := by
            intro hcontra
            rw [hcontra] at hbad
            simp at hbad
          have h1 : resolvableB notes id = false := by
            cases hres : resolvableB notes id
            · rfl
            · rw [hres] at hbad
              simp at hbad
          exact ⟨id, h1, by
            rw [processItem, if_neg hr]
            simp only [resolveItemId_of_not_resolvable notes dnb id h1]⟩
    · intro items hsz
      cases items with
      | nil =>
        constructor
        · intro _
          exact ⟨[], by rw [processItems]⟩
        · intro hbad
          rw [hasBadRefList] at hbad
          cases hbad
      | cons x xs =>
        have hx_sz : sizeOf x ≤ N := by
          have h2 : sizeOf x < sizeOf (x :: xs) := by
            simp
            omega
          omega
        have hxs_sz : sizeOf xs ≤ N := by
          have h2 : sizeOf xs < sizeOf (x :: xs) := by
            simp
          omega
        constructor
        · intro hgood
          rw [hasBadRefList] at hgood
          have h1 : hasBadRefB notes x = false := (Bool.or_eq_false_iff.mp hgood).1
          have h2 : hasBadRefList notes xs = false := (Bool.or_eq_false_iff.mp hgood).2
          rcases (ih.1 x hx_sz).1 h1 with ⟨l1, hl1⟩
          rcases (ih.2 xs hxs_sz).1 h2 with ⟨ls, hls⟩
          exact ⟨l1 :: ls, by simp only [processItems, hl1, hls, Except.map]⟩
        · intro hbad
          rw [hasBadRefList] at hbad
          cases h1 : hasBadRefB notes x with
          | true =>
            rcases (ih.1 x hx_sz).2 h1 with ⟨id, hid, herr⟩
            exact ⟨id, hid, by simp only [processItems, herr]⟩
          | false =>
            have h2 : hasBadRefList notes xs = true := by
              rw [h1] at hbad
              simpa using hbad
            rcases (ih.1 x hx_sz).1 h1 with ⟨l1, hl1⟩
            rcases (ih.2 xs hxs_sz).2 h2 with ⟨id, hid, herr⟩
            exact ⟨id, hid, by simp only [processItems, hl1, herr, Except.map]⟩

theorem processSiderbar_classified (fuel : Nat) (notes : NoteDict)
    (dnb : Option DuplicatePayload) (rank : String → Nat)
    (HI : ∀ p ∈ notes, p.snd.id = p.fst)
    (HR : ∀ p ∈ notes, ∀ c ∈ p.snd.children,
      (dictGet notes c).isSome = true ∧ rank c < rank p.fst)
    (HFuel : ∀ p ∈ notes, rank p.fst < fuel)
    (hfuel : 0 < fuel) (sb : List SidebarItemConfig) :
    (hasBadRefList notes sb = false →
      ∃ out, processSiderbar fuel notes dnb sb = .ok out) ∧
    (hasBadRefList notes sb = true →
      ∃ id, resolvableB notes id = false ∧
        processSiderbar fuel notes dnb sb = .error (.doesNotExist id)) := by
  have hclass := processClassified fuel notes dnb rank HI HR HFuel hfuel
  constructor
  · intro hgood
    have hall : ∀ x ∈ sb.map (safeProcessItem fuel notes dnb), ∃ a, x = .ok a := by
      intro x hx
      rcases List.mem_map.mp hx with ⟨item, hitem, rfl⟩
      have hfree : hasBadRefB notes item = false := by
        cases hbi : hasBadRefB notes item with
        | false => rfl
        | true =>
          have h2 : hasBadRefList notes sb = true :=
            (hasBadRefList_iff notes sb).mpr ⟨item, hitem, hbi⟩
          rw [hgood] at h2
          cases h2
      rcases ((hclass (sizeOf item)).1 item le_rfl).1 hfree with ⟨out, hout⟩
      exact ⟨out, by simp only [safeProcessItem, hout]⟩
    rcases combineResults_ok hall with ⟨out, hout⟩
    exact ⟨out.flatten, by simp only [processSiderbar, hout, Except.map]⟩
  · intro hbad
    rcases (hasBadRefList_iff notes sb).mp hbad with ⟨item, hitem, hbi⟩
    have hall : ∀ x ∈ sb.map (safeProcessItem fuel notes dnb),
        (∃ a, x = .ok a) ∨
          ∃ id, resolvableB notes id = false ∧ x = .error (.doesNotExist id) := by
      intro x hx
      rcases List.mem_map.mp hx with ⟨it, hit, rfl⟩
      cases hbi2 : hasBadRefB notes it with
      | false =>
        rcases ((hclass (sizeOf it)).1 it le_rfl).1 hbi2 with ⟨out, hout⟩
        exact Or.inl ⟨out, by simp only [safeProcessItem, hout]⟩
      | true =>
        rcases ((hclass (sizeOf it)).1 it le_rfl).2 hbi2 with ⟨id, hid, herr⟩
        exact Or.inr ⟨id, hid, by simp only [safeProcessItem, herr]⟩
    have hbadelem : ∃ x ∈ sb.map (safeProcessItem fuel notes dnb), ∀ a, x ≠ .ok a := by
      refine ⟨safeProcessItem fuel notes dnb item, List.mem_map_of_mem _ hitem, ?_⟩
      rcases ((hclass (sizeOf item)).1 item le_rfl).2 hbi with ⟨id, _, herr⟩
      have heq : safeProcessItem fuel notes dnb item = .error (.doesNotExist id) := by
        simp only [safeProcessItem, herr]
      intro a hcontra
      rw [heq] at hcontra
      cases hcontra
    rcases combineResults_err hall hbadelem with ⟨id, hid, herr2⟩
    exact ⟨id, hid, by simp only [processSiderbar, herr2, Except.map]⟩

/-- C7: reference errors are fatal and fail-fast.  Over a well-keyed,
acyclic, child-closed note graph (witnessed by a rank function bounded by
the step budget), if any sidebar of the configuration contains a note
item, category link, or non-root autogeneration anchor whose id or path
name matches no note, then the resolution of the whole call is a typed
does-not-exist error naming an unresolvable reference — no sidebar
mapping at all is returned. -/
theorem c7_theorem (fuel : Nat) (notes : NoteDict) (dnb : Option DuplicatePayload)
    (rank : String → Nat) (sidebars : List (String × List SidebarItemConfig))
    (HI : ∀ p ∈ notes, p.snd.id = p.fst)
    (HR : ∀ p ∈ notes, ∀ c ∈ p.snd.children,
      (dictGet notes c).isSome = true ∧ rank c < rank p.fst)
    (HFuel : ∀ p ∈ notes, rank p.fst < fuel)
    (hfuel : 0 < fuel)
    (hbad : ∃ sb ∈ sidebars, hasBadRefList notes sb.snd = true) :
    ∃ id, resolvableB notes id = false ∧
      processSidebars fuel notes dnb sidebars = .error (.doesNotExist id) := by
  have hclass := processSiderbar_classified fuel notes dnb rank HI HR HFuel hfuel
  rcases hbad with ⟨sb, hsb_mem, hsb_bad⟩
  have hall : ∀ x ∈ sidebars.map (fun p =>
      (processSiderbar fuel notes dnb p.snd).map (fun v => (p.fst, v))),
      (∃ a, x = .ok a) ∨
        ∃ id, resolvableB notes id = false ∧ x = .error (.doesNotExist id) := by
    intro x hx
    rcases List.mem_map.mp hx with ⟨p, _, rfl⟩
    cases hb : hasBadRefList notes p.snd with
    | false =>
      rcases (hclass p.snd).1 hb with ⟨out, hout⟩
      exact Or.inl ⟨(p.fst, out), by rw [hout]; rfl⟩
    | true =>
      rcases (hclass p.snd).2 hb with ⟨id, hid, herr⟩
      exact Or.inr ⟨id, hid, by rw [herr]; rfl⟩
  have hbadelem : ∃ x ∈ sidebars.map (fun p =>
      (processSiderbar fuel notes dnb p.snd).map (fun v => (p.fst, v))),
      ∀ a, x ≠ .ok a := by
    refine ⟨(processSiderbar fuel notes dnb sb.snd).map (fun v => (sb.fst, v)),
      List.mem_map_of_mem _ hsb_mem, ?_⟩
    rcases (hclass sb.snd).2 hsb_bad with ⟨id, _, herr⟩
    intro a hcontra
    rw [herr] at hcontra
    cases hcontra
  exact combineResults_err hall hbadelem

/-- A one-note well-formed graph for the C7 witness. -/
def dictC7 : NoteDict :=
  [ ("a", { id := "a", fname := "a", title := "A", children := [],
            vault := ⟨some "v1", "/v1"⟩, stub := false, schema := false,
            custom_nav_order := none, updated := 1, fm := ⟨false, none, none⟩ }) ]

/-- Witness for C7: a sidebar with a note item referencing the missing
note `ghost` makes the whole resolution fail with a typed does-not-exist
error. -/
theorem c7_witness :
    (∀ p ∈ dictC7, p.snd.id = p.fst) ∧
    hasBadRefList dictC7 [SidebarItemConfig.note "ghost" "G"] = true ∧
    ∃ id, resolvableB dictC7 id = false ∧
      processSidebars 1 dictC7 none [("s", [SidebarItemConfig.note "ghost" "G"])] =
        .error (.doesNotExist id) := by
  have hbadlist : hasBadRefList dictC7 [SidebarItemConfig.note "ghost" "G"] = true := by
    rw [hasBadRefList, hasBadRefB, hasBadRefList]
    decide
  refine ⟨by decide, hbadlist, ?_⟩
  exact c7_theorem 1 dictC7 none (fun _ => 0)
    [("s", [SidebarItemConfig.note "ghost" "G"])]
    (by decide) (by decide) (by decide) (by decide)
    ⟨("s", [SidebarItemConfig.note "ghost" "G"]), List.mem_cons_self _ _, hbadlist⟩
